import Mathlib

/-!
# Harbor repository API (`api/repository.go`)

A shallow embedding of the request handlers of `RepositoryAPI` and of the helper
`getProjectName`, followed by theorems about them.

Conventions of the embedding.

* A Go `string` is modelled as a list of characters (`GoString`).  The handlers only
  search for substrings, cut at the byte `/` and compare strings; on UTF-8 text these
  byte-level operations agree with the same operations on the sequence of characters.
  A position counts characters where Go counts bytes; positions are only used to cut a
  string at a `/`, which gives the same two pieces either way.
* A handler is a function from an environment `Env` (the request parameters together
  with the answers of the collaborators that are not part of this file: storage,
  session, permission helpers, cache, registry client) to a `Result`: the sequence of
  externally visible calls it issued, in program order, and how it ended.
* Work started with `go` (replication trigger, access log, cache refresh) is recorded at
  the point where it is started.
* `CustomAbort` ends the handler at once (`Outcome.aborted`); `RenderError` writes an
  error response and the handler goes on until it returns; a nil dereference or an index
  out of range ends the handler with a run-time panic (`Outcome.panicked`).
-/

namespace Harbor

/-! ## Strings -/

/-- Go `string`. -/
abbrev GoString := List Char

/-- Go `strings.Index(s, substr)`: position of the first instance of `substr` in `s`,
`-1` when there is none. -/
def stringsIndex : GoString → GoString → Int
  | [], substr => if substr = [] then 0 else -1
  | c :: cs, substr =>
    if substr.isPrefixOf (c :: cs) then 0
    else
      let r := stringsIndex cs substr
      if 0 ≤ r then r + 1 else -1

/-- Go `strings.Contains(s, substr)`, which is `strings.Index(s, substr) >= 0`. -/
def stringsContains (s substr : GoString) : Bool :=
  decide (0 ≤ stringsIndex s substr)

/-- Go `strings.LastIndex(s, substr)`: position of the last instance of `substr` in `s`,
`-1` when there is none. -/
def stringsLastIndex : GoString → GoString → Int
  | [], substr => if substr = [] then 0 else -1
  | c :: cs, substr =>
    let r := stringsLastIndex cs substr
    if 0 ≤ r then r + 1
    else if substr.isPrefixOf (c :: cs) then 0 else -1

/-- Go slice expression `s[0:j]`.  Every use below is guarded by `strings.Contains`, so
`0 ≤ j ≤ len(s)` (see `stringsLastIndex_slash_bounds`) and the expression cannot fail. -/
def sliceTo (s : GoString) (j : Int) : GoString := s.take j.toNat

/-- Go slice expression `s[i:]`, under the same guard as `sliceTo`. -/
def sliceFrom (s : GoString) (i : Int) : GoString := s.drop i.toNat

/-- The separator `"/"`. -/
def slash : GoString := ['/']

/-- Function `getProjectName` (repository.go, lines 508-514). -/
def getProjectName (repository : GoString) : GoString :=
  if stringsContains repository slash then
    sliceTo repository (stringsLastIndex repository slash)
  else
    []

/-- The expression `r[strings.LastIndex(r, "/")+1:]` of `Get` (line 96): the last path
segment of a repository identifier. -/
def lastSegment (r : GoString) : GoString :=
  sliceFrom r (stringsLastIndex r slash + 1)

/-- Go `<` on strings: lexicographic comparison, element by element. -/
def stringLess : GoString → GoString → Bool
  | [], [] => false
  | [], _ :: _ => true
  | _ :: _, [] => false
  | a :: as, b :: bs =>
    if a.toNat < b.toNat then true
    else if b.toNat < a.toNat then false
    else stringLess as bs

/-- Ascending order on strings: `a` may stand before `b`. -/
def stringLE (a b : GoString) : Prop := stringLess b a = false

instance stringLE_decidable : DecidableRel stringLE :=
  fun a b => inferInstanceAs (Decidable (stringLess b a = false))

/-- Go `sort.Strings`: the slice put in increasing order.  The order is total and
antisymmetric, so the sorted arrangement of a list is unique
(`sortStrings_unique`) and every sorting algorithm computes this same list. -/
def sortStrings (l : List GoString) : List GoString :=
  l.insertionSort stringLE

/-! ## float64 arithmetic and time

Line 408 computes `int(time.Since(item.Created).Hours()/24)`.  `time.Since` gives a
`Duration`, a signed 64-bit count of nanoseconds; `Duration.Hours` is

    hour := d / Hour
    nsec := d % Hour
    return float64(hour) + float64(nsec)/(60*60*1e9)

and the result is divided by the float64 constant `24` and converted to `int`.  Every
float64 step is the exact result rounded to the nearest float64 value, ties to the even
mantissa; the conversion to `int` drops the fraction.  The values of line 408 are far
from the overflow threshold of float64, which is not modelled. -/

/-- A finite float64 value, written as the dyadic number `m * 2^e`. -/
structure Float64 where
  m : Int
  e : Int
  deriving DecidableEq, Repr

/-- Helper of `log2`: the recursion, bounded by `fuel`. -/
def log2Fuel : Nat → Nat → Nat
  | 0, _ => 0
  | fuel + 1, n => if n < 2 then 0 else log2Fuel fuel (n / 2) + 1

/-- The position of the leading bit of `n`: `2^(log2 n) ≤ n < 2^(log2 n + 1)` for
`n > 0`. -/
def log2 (n : Nat) : Nat := log2Fuel n n

/-- An exponent `l` with `2^l ≤ a / q`, the binade of the positive fraction `a / q`. -/
def binadeExponent (a q : Nat) : Int :=
  let t : Int := (log2 a : Int) - (log2 q : Int)
  if q * 2 ^ t.toNat ≤ a * 2 ^ (-t).toNat then t else t - 1

/-- The fraction `n / d` rounded to the nearest natural number, a tie going to the even
one. -/
def roundHalfEven (n d : Nat) : Nat :=
  let qt := n / d
  let r := n % d
  if 2 * r < d then qt
  else if d < 2 * r then qt + 1
  else if qt % 2 = 0 then qt else qt + 1

/-- The non-negative fraction `a / q` rounded to float64: a mantissa of 53 bits at the
exponent of the binade of `a / q` (not below the least float64 exponent `-1074`),
rounded to nearest, ties to even.  The result is the pair (mantissa, exponent). -/
def roundNat (a q : Nat) : Nat × Int :=
  if a = 0 then (0, 0)
  else
    let e : Int := max (binadeExponent a q - 52) (-1074)
    (roundHalfEven (a * 2 ^ (-e).toNat) (q * 2 ^ e.toNat), e)

/-- The fraction `p / q` rounded to float64 (round to nearest, ties to even). -/
def Float64.round (p : Int) (q : Nat) : Float64 :=
  let r := roundNat p.natAbs q
  if p < 0 then ⟨-(r.1 : Int), r.2⟩ else ⟨(r.1 : Int), r.2⟩

/-- Numerator of the exact value `num / den` of a float64 number. -/
def Float64.num (x : Float64) : Int := x.m * 2 ^ x.e.toNat

/-- Denominator of the exact value `num / den` of a float64 number. -/
def Float64.den (x : Float64) : Nat := 2 ^ (-x.e).toNat

/-- Go conversion `float64(n)` of an integer. -/
def Float64.ofInt (n : Int) : Float64 := Float64.round n 1

/-- Go `x + y` on float64. -/
def Float64.add (x y : Float64) : Float64 :=
  Float64.round (x.num * y.den + y.num * x.den) (x.den * y.den)

/-- Go `x / c` on float64, for a positive integer constant `c` that float64 holds
exactly (here `60*60*1e9` and `24`). -/
def Float64.divNat (x : Float64) (c : Nat) : Float64 :=
  Float64.round x.num (x.den * c)

/-- Go conversion `int(x)` of a float64: the fraction is dropped. -/
def Float64.toInt (x : Float64) : Int := Int.tdiv x.num x.den

/-- Go `time.Hour`, in nanoseconds. -/
def Hour : Int := 3600000000000

/-- Go `Duration.Hours` for a duration of `d` nanoseconds; `/` and `%` on `int64`
truncate toward zero. -/
def durationHours (d : Int) : Float64 :=
  Float64.add (Float64.ofInt (d.tdiv Hour))
    (Float64.divNat (Float64.ofInt (d.tmod Hour)) 3600000000000)

/-- The expression `int(d.Hours()/24)` of line 408 for a duration of `d` nanoseconds. -/
def ageDays (d : Int) : Int := Float64.toInt (Float64.divNat (durationHours d) 24)

/-- Go `time.Since(t)` when the clock reads `now`, both instants in nanoseconds: the
difference as a `Duration`, kept within the range of `int64`. -/
def timeSince (now t : Int) : Int :=
  if now - t < -9223372036854775808 then -9223372036854775808
  else if 9223372036854775807 < now - t then 9223372036854775807
  else now - t

/-! ## Data model and collaborators -/

/-- A Go `error` value returned by a collaborator.  `registry` is a
`*registry_error.Error` (the structured registry error, with its `StatusCode` and
`Detail`); `plain` is any other error. -/
inductive GoError where
  | registry (StatusCode : Nat) (Detail : GoString)
  | plain (msg : GoString)
  deriving DecidableEq, Repr

/-- The fields of `models.Project` that the handlers read. -/
structure Project where
  ProjectID : Int
  Name : GoString
  Public : Int
  deriving DecidableEq, Repr

/-- A value stored in the session (`interface{}`): a string, an int, or something else. -/
inductive SessionValue where
  | str (s : GoString)
  | int (n : Int)
  | another
  deriving DecidableEq, Repr

/-- The field of `models.Manifest` that `GetManifests` reads: the history entries, each
given by its `V1Compatibility` text. -/
structure Manifest where
  History : List GoString
  deriving DecidableEq, Repr

/-- The fields of `models.RepoItem` that `GetManifests` touches: `Created` is the
creation instant in nanoseconds, `Fields` stands for the rest of the decoded item. -/
structure RepoItem where
  Created : Int
  DurationDays : GoString
  Fields : GoString
  deriving DecidableEq, Repr

/-- Modelled from the spec: the constant `models.RepOpDelete`, declared outside this
file; the spec names the operation kind "delete". -/
def RepOpDelete : GoString := "delete".toList

/-- Go `http.StatusText(http.StatusNotFound)`. -/
def statusTextNotFound : GoString := "Not Found".toList

/-- An externally visible call issued by a handler. -/
inductive Event where
  | InitRepositoryClient (repoName : GoString)
  | ListTag
  | DeleteTag (tag : GoString)
  | PullManifest (tag : GoString) (mediaTypes : List GoString)
  | TriggerReplicationByRepository (repoName : GoString) (tags : List GoString)
      (operation : GoString)
  | AccessLog (user projectName repoName tag action : GoString)
  | RefreshCatalogCache
  | RenderError (code : Nat) (text : GoString)
  deriving DecidableEq, Repr

/-- How a handler ended: it returned (with the JSON body it served, if any), it was cut
short by `CustomAbort`, or it hit a run-time panic. -/
inductive Outcome (α : Type) where
  | returned (json : Option α)
  | aborted (code : Nat) (body : GoString)
  | panicked
  deriving DecidableEq, Repr

/-- What a handler did: the calls it issued, in order, and how it ended. -/
structure Result (α : Type) where
  trace : List Event
  outcome : Outcome α
  deriving DecidableEq, Repr

/-- The result of a helper that returns `(value, error)` and may also panic. -/
inductive Fallible (α : Type) where
  | ok (a : α)
  | err (e : GoError)
  | panic

/-- The registry client `*registry.Repository`, as a machine over a registry state `σ`:
every call answers and moves the registry to a next state. -/
structure Repository (σ : Type) where
  ListTag : σ → Except GoError (List GoString) × σ
  DeleteTag : GoString → σ → Option GoError × σ
  PullManifest : GoString → List GoString → σ → Except GoError GoString × σ

/-- The request and the collaborators of the handlers.  None of the collaborators is
defined in `repository.go`; each is taken as it answers. -/
structure Env (σ : Type) where
  /-- Value of `ra.GetString(key)`; the empty string when the parameter is absent. -/
  GetString : GoString → GoString
  /-- Value of `ra.GetInt64("project_id")`; `none` when it returns an error. -/
  GetInt64ProjectID : Option Int
  /-- Result of `ra.Ctx.Request.BasicAuth()`: username and password when present. -/
  BasicAuth : Option (GoString × GoString)
  /-- Value of `ra.GetSession("username")`; `none` is Go `nil`. -/
  SessionUsername : Option SessionValue
  /-- Value of `ra.GetSession("userId")`; `none` is Go `nil`. -/
  SessionUserID : Option SessionValue
  /-- Value of `svc_utils.VerifySecret(ra.Ctx.Request)`. -/
  VerifySecret : Bool
  /-- Result of `ra.ValidateUser()` of `BaseAPI`: the user id it returns, or the abort (status code
  and body) with which it ends the request itself. -/
  ValidateUser : Except (Nat × GoString) Int
  /-- Helper `checkProjectPermission(userID, projectID)`. -/
  checkProjectPermission : Int → Int → Bool
  /-- Helper `hasProjectAdminRole(userID, projectID)`. -/
  hasProjectAdminRole : Int → Int → Bool
  /-- Lookup `dao.GetProjectByID`; `ok none` is a nil project without error. -/
  GetProjectByID : Int → Except GoError (Option Project)
  /-- Lookup `dao.GetProjectByName`; `ok none` is a nil project without error. -/
  GetProjectByName : GoString → Except GoError (Option Project)
  /-- Lookup `dao.GetUser` for a user id, reduced to the `Username` of the user found;
  `ok none` is a nil user without error. -/
  GetUser : Int → Except GoError (Option GoString)
  /-- Lookup `dao.GetRepoLabels(r)`: the label list it returns (its error is discarded by the
  only caller modelled here). -/
  GetRepoLabels : GoString → List GoString
  /-- Result of `cache.GetRepoFromCache()`: the list and the error it returns. -/
  GetRepoFromCache : List GoString × Option GoError
  /-- Result of `auth.NewAuthorizerStore` for the authorizer built from a username and password;
  `some e` when it fails. -/
  NewAuthorizerStore : GoString → GoString → Option GoError
  /-- Result of `registry.NewRepositoryWithModifiers` for a repository, with the store built for
  a username and password. -/
  NewRepositoryWithModifiers : GoString → GoString → GoString →
    Except GoError (Repository σ)
  /-- Result of `cache.NewRepositoryClient` for a username and a repository. -/
  CacheNewRepositoryClient : GoString → GoString → Except GoError (Repository σ)
  /-- The state of the registry when the request arrives. -/
  registry : σ
  /-- Result of `json.Unmarshal(payload, &mani)`. -/
  UnmarshalManifest : GoString → Except GoError Manifest
  /-- Result of `json.Unmarshal([]byte(v1Compatibility), &item)`. -/
  UnmarshalRepoItem : GoString → Except GoError RepoItem
  /-- The instant that the clock shows when line 408 reads it, in nanoseconds. -/
  Now : Int

/-! ## Helpers of the handlers -/

/-- Function `getUsername` (lines 432-461). -/
def getUsername {σ : Type} (env : Env σ) : Fallible GoString :=
  match env.SessionUsername with
  | some (SessionValue.str username) => Fallible.ok username
  | _ =>
    match env.SessionUserID with
    | some (SessionValue.int userID) =>
      match env.GetUser userID with
      | Except.error e => Fallible.err e
      | Except.ok none => Fallible.panic
      | Except.ok (some username) => Fallible.ok username
    | _ => Fallible.ok []

/-- Function `newRepositoryClient` (lines 490-506). -/
def newRepositoryClient {σ : Type} (env : Env σ) (username password repository : GoString) :
    Except GoError (Repository σ) :=
  match env.NewAuthorizerStore username password with
  | some e => Except.error e
  | none => env.NewRepositoryWithModifiers repository username password

/-- Function `initRepositoryClient` (lines 414-430). -/
def initRepositoryClient {σ : Type} (env : Env σ) (repoName : GoString) :
    Fallible (Repository σ) :=
  match env.BasicAuth with
  | some (username, password) =>
    match newRepositoryClient env username password repoName with
    | Except.error e => Fallible.err e
    | Except.ok rc => Fallible.ok rc
  | none =>
    match getUsername env with
    | Fallible.err e => Fallible.err e
    | Fallible.panic => Fallible.panic
    | Fallible.ok username =>
      match env.CacheNewRepositoryClient username repoName with
      | Except.error e => Fallible.err e
      | Except.ok rc => Fallible.ok rc

/-- The abort chosen for a failed registry call (lines 247-252, 275-280, 336-341,
386-391): the status code and detail of a structured registry error, otherwise 500
with "internal error". -/
def abortOfError {α : Type} : GoError → Outcome α
  | GoError.registry code detail => Outcome.aborted code detail
  | GoError.plain _ => Outcome.aborted 500 "internal error".toList

/-- Put the calls already issued in front of the calls of the rest of a handler. -/
def Result.after {α : Type} (pre : List Event) (r : Result α) : Result α :=
  ⟨pre ++ r.trace, r.outcome⟩

/-! ## Delete (lines 216-298) -/

/-- The calls started for one tag after its `DeleteTag` succeeded (lines 274-289):
the registry call itself, the replication trigger and the access-log record. -/
def deletedTagEvents (user projectName repoName t : GoString) : List Event :=
  [Event.DeleteTag t,
   Event.TriggerReplicationByRepository repoName [t] RepOpDelete,
   Event.AccessLog user projectName repoName t "delete".toList]

/-- The loop `for _, t := range tags` of `Delete` (lines 273-290), started in registry
state `s`: the calls issued and, when a `DeleteTag` failed, the abort that ended it. -/
def deleteLoop {σ : Type} (rc : Repository σ) (user projectName repoName : GoString) :
    List GoString → σ → List Event × Option (Outcome Unit)
  | [], _ => ([], none)
  | t :: ts, s =>
    match rc.DeleteTag t s with
    | (some e, _) => ([Event.DeleteTag t], some (abortOfError e))
    | (none, s') =>
      let rest := deleteLoop rc user projectName repoName ts s'
      (deletedTagEvents user projectName repoName t ++ rest.1, rest.2)

/-- The acting user of `Delete` (lines 265-271): the basic-auth username, else the
result of `getUsername`, whose error is only logged (the name is then empty). -/
def deleteUser {σ : Type} (env : Env σ) : Option GoString :=
  match env.BasicAuth with
  | some (user, _) => some user
  | none =>
    match getUsername env with
    | Fallible.ok user => some user
    | Fallible.err _ => some []
    | Fallible.panic => none

/-- Lines 265-297 of `Delete`, for the target tags `tags` and registry state `s`. -/
def deleteTags {σ : Type} (env : Env σ) (rc : Repository σ)
    (projectName repoName : GoString) (tags : List GoString) (s : σ) : Result Unit :=
  match deleteUser env with
  | none => ⟨[], Outcome.panicked⟩
  | some user =>
    match deleteLoop rc user projectName repoName tags s with
    | (tr, some stop) => ⟨tr, stop⟩
    | (tr, none) => ⟨tr ++ [Event.RefreshCatalogCache], Outcome.returned none⟩

/-- The role check of `Delete` (lines 229-234): `some stop` when the request ends
there, `none` when the handler goes on. -/
def deleteGate {σ : Type} (env : Env σ) (project : Project) : Option (Outcome Unit) :=
  if project.Public = 0 then
    match env.ValidateUser with
    | Except.error (code, body) => some (Outcome.aborted code body)
    | Except.ok userID =>
      if env.hasProjectAdminRole userID project.ProjectID then none
      else some (Outcome.aborted 403 [])
  else none

/-- Handler `RepositoryAPI.Delete` (lines 216-298). -/
def Delete {σ : Type} (env : Env σ) : Result Unit :=
  let repoName := env.GetString "repo_name".toList
  if repoName.length = 0 then ⟨[], Outcome.aborted 400 "repo_name is nil".toList⟩
  else
    let projectName := getProjectName repoName
    match env.GetProjectByName projectName with
    | Except.error _ => ⟨[], Outcome.aborted 500 []⟩
    | Except.ok none => ⟨[], Outcome.panicked⟩
    | Except.ok (some project) =>
      match deleteGate env project with
      | some stop => ⟨[], stop⟩
      | none =>
        Result.after [Event.InitRepositoryClient repoName]
          (match initRepositoryClient env repoName with
          | Fallible.err _ => ⟨[], Outcome.aborted 500 "internal error".toList⟩
          | Fallible.panic => ⟨[], Outcome.panicked⟩
          | Fallible.ok rc =>
            let tag := env.GetString "tag".toList
            if tag.length = 0 then
              Result.after [Event.ListTag]
                (match rc.ListTag env.registry with
                | (Except.error e, _) => ⟨[], abortOfError e⟩
                | (Except.ok tagList, s) =>
                  if tagList.length = 0 then ⟨[], Outcome.aborted 404 statusTextNotFound⟩
                  else deleteTags env rc projectName repoName tagList s)
            else deleteTags env rc projectName repoName [tag] env.registry)

/-! ## GetTags (lines 306-350) -/

/-- The permission check shared by `GetTags` and `GetManifests` (lines 319-324 and
368-373). -/
def viewGate {σ α : Type} (env : Env σ) (project : Project) : Option (Outcome α) :=
  if project.Public = 0 then
    match env.ValidateUser with
    | Except.error (code, body) => some (Outcome.aborted code body)
    | Except.ok userID =>
      if env.checkProjectPermission userID project.ProjectID then none
      else some (Outcome.aborted 403 [])
  else none

/-- Handler `RepositoryAPI.GetTags` (lines 306-350). -/
def GetTags {σ : Type} (env : Env σ) : Result (List GoString) :=
  let repoName := env.GetString "repo_name".toList
  if repoName.length = 0 then ⟨[], Outcome.aborted 400 "repo_name is nil".toList⟩
  else
    let projectName := getProjectName repoName
    match env.GetProjectByName projectName with
    | Except.error _ => ⟨[], Outcome.aborted 500 []⟩
    | Except.ok none => ⟨[], Outcome.panicked⟩
    | Except.ok (some project) =>
      match viewGate env project with
      | some stop => ⟨[], stop⟩
      | none =>
        Result.after [Event.InitRepositoryClient repoName]
          (match initRepositoryClient env repoName with
          | Fallible.err _ => ⟨[], Outcome.aborted 500 "internal error".toList⟩
          | Fallible.panic => ⟨[], Outcome.panicked⟩
          | Fallible.ok rc =>
            Result.after [Event.ListTag]
              (match rc.ListTag env.registry with
              | (Except.error e, _) => ⟨[], abortOfError e⟩
              | (Except.ok ts, _) => ⟨[], Outcome.returned (some (sortStrings ts))⟩))

/-! ## GetManifests (lines 353-412) -/

/-- Go `schema1.MediaTypeManifest`. -/
def MediaTypeManifest : GoString := "application/vnd.docker.distribution.manifest.v1+json".toList

/-- Go `strconv.Itoa`. -/
def strconvItoa (n : Int) : GoString := (toString n).toList

/-- Lines 393-411 of `GetManifests`, for the payload that `PullManifest` returned. -/
def decodeManifest {σ : Type} (env : Env σ) (payload : GoString) : Result RepoItem :=
  match env.UnmarshalManifest payload with
  | Except.error _ =>
    ⟨[Event.RenderError 500 "Internal Server Error".toList], Outcome.returned none⟩
  | Except.ok mani =>
    match mani.History with
    | [] => ⟨[], Outcome.panicked⟩
    | first :: _ =>
      let v1Compatibility := first
      match env.UnmarshalRepoItem v1Compatibility with
      | Except.error _ =>
        ⟨[Event.RenderError 500 "Internal Server Error".toList], Outcome.returned none⟩
      | Except.ok item =>
        let item := { item with
          DurationDays :=
            strconvItoa (ageDays (timeSince env.Now item.Created)) ++ " days".toList }
        ⟨[], Outcome.returned (some item)⟩

/-- Handler `RepositoryAPI.GetManifests` (lines 353-412). -/
def GetManifests {σ : Type} (env : Env σ) : Result RepoItem :=
  let repoName := env.GetString "repo_name".toList
  let tag := env.GetString "tag".toList
  if repoName.length = 0 ∨ tag.length = 0 then
    ⟨[], Outcome.aborted 400 "repo_name or tag is nil".toList⟩
  else
    let projectName := getProjectName repoName
    match env.GetProjectByName projectName with
    | Except.error _ => ⟨[], Outcome.aborted 500 []⟩
    | Except.ok none => ⟨[], Outcome.panicked⟩
    | Except.ok (some project) =>
      match viewGate env project with
      | some stop => ⟨[], stop⟩
      | none =>
        Result.after [Event.InitRepositoryClient repoName]
          (match initRepositoryClient env repoName with
          | Fallible.err _ => ⟨[], Outcome.aborted 500 "internal error".toList⟩
          | Fallible.panic => ⟨[], Outcome.panicked⟩
          | Fallible.ok rc =>
            let mediaTypes := [MediaTypeManifest]
            Result.after [Event.PullManifest tag mediaTypes]
              (match rc.PullManifest tag mediaTypes env.registry with
              | (Except.error e, _) => ⟨[], abortOfError e⟩
              | (Except.ok payload, _) => decodeManifest env payload))

/-! ## Get (lines 52-118) -/

/-- The test of line 96 on a catalog entry `r`. -/
def matchesQuery (projectName q r : GoString) : Bool :=
  stringsContains r slash && stringsContains (sliceFrom r (stringsLastIndex r slash + 1)) q
    && (sliceTo r (stringsLastIndex r slash) == projectName)

/-- The test of line 109 on a catalog entry `r`. -/
def underProject (projectName r : GoString) : Bool :=
  stringsContains r slash && (sliceTo r (stringsLastIndex r slash) == projectName)

/-- The loop of lines 95-105: what is appended to `resp` for the catalog `repoList`. -/
def searchLoop {σ : Type} (env : Env σ) (projectName q : GoString) :
    List GoString → List GoString
  | [] => []
  | r :: rest =>
    (if matchesQuery projectName q r then [r] else [])
      ++ (env.GetRepoLabels r).filter (fun label => stringsContains label q)
      ++ searchLoop env projectName q rest

/-- The loop of lines 108-112. -/
def projectLoop (projectName : GoString) : List GoString → List GoString
  | [] => []
  | r :: rest =>
    (if underProject projectName r then [r] else []) ++ projectLoop projectName rest

/-- Lines 91-116 of `Get`: the list served for a project name, a query and the cached
catalog. -/
def listRepositories {σ : Type} (env : Env σ) (projectName q : GoString)
    (repoList : List GoString) : List GoString :=
  if q.length > 0 then searchLoop env projectName q repoList
  else if projectName.length > 0 then projectLoop projectName repoList
  else repoList

/-- The permission check of `Get` (lines 70-83): `some r` when the request ends there. -/
def getGate {σ : Type} (env : Env σ) (p : Project) (projectID : Int) :
    Option (Result (List GoString)) :=
  if p.Public = 0 then
    match (if env.VerifySecret then Except.ok 1 else env.ValidateUser) with
    | Except.error (code, body) => some ⟨[], Outcome.aborted code body⟩
    | Except.ok userID =>
      if env.checkProjectPermission userID projectID then none
      else some ⟨[Event.RenderError 403 []], Outcome.returned none⟩
  else none

/-- Handler `RepositoryAPI.Get` (lines 52-118). -/
def Get {σ : Type} (env : Env σ) : Result (List GoString) :=
  match env.GetInt64ProjectID with
  | none => ⟨[Event.RenderError 400 "Invalid project id".toList], Outcome.returned none⟩
  | some projectID =>
    match env.GetProjectByID projectID with
    | Except.error _ => ⟨[], Outcome.aborted 500 "Internal error.".toList⟩
    | Except.ok none => ⟨[Event.RenderError 404 []], Outcome.returned none⟩
    | Except.ok (some p) =>
      match getGate env p projectID with
      | some r => r
      | none =>
        let (repoList, err) := env.GetRepoFromCache
        let rendered := match err with
          | some _ => [Event.RenderError 500 "internal sever error".toList]
          | none => []
        let projectName := p.Name
        let q := env.GetString "q".toList
        ⟨rendered, Outcome.returned (some (listRepositories env projectName q repoList))⟩

/-! ## Vocabulary of the statements -/

/-- The text `s` contains the text `substr`. -/
def hasSubstring (s substr : GoString) : Prop := ∃ a b, s = a ++ substr ++ b

/-- The registry state reached from `s` after `DeleteTag` was called for each of `tags`
in turn and every call succeeded; `none` when one of the calls fails. -/
def registryAfter {σ : Type} (rc : Repository σ) : List GoString → σ → Option σ
  | [], s => some s
  | t :: ts, s =>
    match rc.DeleteTag t s with
    | (none, s') => registryAfter rc ts s'
    | (some _, _) => none

/-- The event is a `DeleteTag` call. -/
def Event.isDeleteTag : Event → Bool
  | Event.DeleteTag _ => true
  | _ => false

/-- The event is a replication trigger. -/
def Event.isReplication : Event → Bool
  | Event.TriggerReplicationByRepository _ _ _ => true
  | _ => false

/-- The event is an access-log record. -/
def Event.isAccessLog : Event → Bool
  | Event.AccessLog _ _ _ _ _ => true
  | _ => false

/-- The event is a refresh of the catalog cache. -/
def Event.isRefresh : Event → Bool
  | Event.RefreshCatalogCache => true
  | _ => false

/-! ## Sample environments

A small registry and a few requests on which the theorems below are exercised. -/

/-- A registry whose state is the list of the tags of the repository.  Deleting the tag
`locked` is refused with a structured error, deleting a tag that is not there fails
with an unstructured error, and any other deletion removes the tag. -/
def sampleRegistry : Repository (List GoString) where
  ListTag := fun s => (Except.ok s, s)
  DeleteTag := fun t s =>
    if t = "locked".toList then (some (GoError.registry 405 "tag is locked".toList), s)
    else if t ∈ s then (none, s.erase t)
    else (some (GoError.plain "no such tag".toList), s)
  PullManifest := fun _ _ s => (Except.ok "manifest".toList, s)

/-- A request on repository `lib/app`, whose project `lib` is `project`, with request
parameter `tag`, for a registry holding `tags`.  The caller has a session as user
`alice` with id 7; user 7 may view every project and administers only project 2.
Items decode with creation instant 0 and the clock reads 48 hours. -/
def sampleEnv (project : Project) (tag : GoString) (tags : List GoString) :
    Env (List GoString) where
  GetString := fun key =>
    if key = "repo_name".toList then "lib/app".toList
    else if key = "tag".toList then tag
    else []
  GetInt64ProjectID := some project.ProjectID
  BasicAuth := none
  SessionUsername := some (SessionValue.str "alice".toList)
  SessionUserID := some (SessionValue.int 7)
  VerifySecret := false
  ValidateUser := Except.ok 7
  checkProjectPermission := fun userID _ => decide (userID = 7)
  hasProjectAdminRole := fun userID projectID => decide (userID = 7 ∧ projectID = 2)
  GetProjectByID := fun id => if id = project.ProjectID then Except.ok (some project)
    else Except.ok none
  GetProjectByName := fun name => if name = "lib".toList then Except.ok (some project)
    else Except.ok none
  GetUser := fun id => if id = 7 then Except.ok (some "alice".toList) else Except.ok none
  GetRepoLabels := fun _ => []
  GetRepoFromCache := (["lib/app-server".toList, "other/app-tool".toList, "lib/web".toList],
    none)
  NewAuthorizerStore := fun _ _ => none
  NewRepositoryWithModifiers := fun _ _ _ => Except.ok sampleRegistry
  CacheNewRepositoryClient := fun _ _ => Except.ok sampleRegistry
  registry := tags
  UnmarshalManifest := fun _ => Except.ok ⟨["v1Compatibility".toList]⟩
  UnmarshalRepoItem := fun _ => Except.ok ⟨0, [], "item".toList⟩
  Now := 172800000000000

/-- The same request from an anonymous caller: no credentials, no session, and
`ValidateUser` ends the request with 401. -/
def anonymousEnv (project : Project) (tag : GoString) (tags : List GoString) :
    Env (List GoString) :=
  { sampleEnv project tag tags with
    SessionUsername := none
    SessionUserID := none
    ValidateUser := Except.error (401, [])
    checkProjectPermission := fun _ _ => false
    hasProjectAdminRole := fun _ _ => false }

/-- A public project named `lib`. -/
def publicLib : Project := ⟨1, "lib".toList, 1⟩

/-- A private project named `lib`, which user 7 administers. -/
def privateLib : Project := ⟨2, "lib".toList, 0⟩

/-- A private project named `lib`, which user 7 may view but does not administer. -/
def guardedLib : Project := ⟨3, "lib".toList, 0⟩

/-- A search request: project `lib` (public, id 1), query `app`, the cached catalog
`lib/app-server`, `other/app-tool`, `lib/web`, and no labels. -/
def searchEnv : Env (List GoString) :=
  { sampleEnv publicLib [] [] with
    GetString := fun key => if key = "q".toList then "app".toList else [] }

/-- A manifest request for `lib/app:latest` whose payload decodes to a manifest with
no history entry (for instance the JSON object without a `history` member). -/
def emptyHistoryEnv : Env (List GoString) :=
  { sampleEnv publicLib "latest".toList ["latest".toList] with
    UnmarshalManifest := fun _ => Except.ok ⟨[]⟩ }

/-! # Theorems -/

/-! ## Strings: facts -/

theorem isPrefixOf_slash (c : Char) (cs : GoString) :
    slash.isPrefixOf (c :: cs) = decide (c = '/') := by
  by_cases h : c = '/'
  · subst h; simp [slash, List.isPrefixOf]
  · have h' : ¬ '/' = c := fun e => h e.symm
    simp [slash, List.isPrefixOf, h, h']

/-- What `strings.LastIndex(s, "/")` returns: `-1` without a `/`; otherwise the length
of the part in front of a `/` that no other `/` follows. -/
theorem stringsLastIndex_slash (s : GoString) :
    ('/' ∉ s → stringsLastIndex s slash = -1) ∧
    ('/' ∈ s → ∃ a b, s = a ++ '/' :: b ∧ '/' ∉ b ∧
      stringsLastIndex s slash = (a.length : Int)) := by
  induction s with
  | nil => simp [stringsLastIndex, slash]
  | cons c cs ih =>
    obtain ⟨ih1, ih2⟩ := ih
    by_cases hcs : '/' ∈ cs
    · obtain ⟨a, b, hab, hb, hidx⟩ := ih2 hcs
      refine ⟨fun h => absurd (List.mem_cons_of_mem c hcs) h, fun _ => ?_⟩
      refine ⟨c :: a, b, by simp [hab], hb, ?_⟩
      have h0 : (0 : Int) ≤ stringsLastIndex cs slash := by rw [hidx]; exact Int.natCast_nonneg _
      have hstep : stringsLastIndex (c :: cs) slash = stringsLastIndex cs slash + 1 := by
        simp only [stringsLastIndex, h0, if_true]
      rw [hstep, hidx, List.length_cons]
      push_cast; ring
    · have hidx := ih1 hcs
      have hneg : ¬ (0 : Int) ≤ stringsLastIndex cs slash := by rw [hidx]; decide
      constructor
      · intro h
        have hc : ¬ c = '/' := fun e => h (by simp [e])
        simp only [stringsLastIndex, hneg, if_false, isPrefixOf_slash]
        simp [hc]
      · intro h
        have hc : c = '/' := by
          rcases List.mem_cons.mp h with h | h
          · exact h.symm
          · exact absurd h hcs
        refine ⟨[], cs, by simp [hc], hcs, ?_⟩
        simp only [stringsLastIndex, hneg, if_false, isPrefixOf_slash]
        simp [hc]

/-- What `strings.Index` returns is non-negative exactly when the substring occurs. -/
theorem stringsIndex_nonneg_iff (s substr : GoString) :
    0 ≤ stringsIndex s substr ↔ ∃ a b, s = a ++ substr ++ b := by
  induction s with
  | nil =>
    by_cases h : substr = []
    · simp [stringsIndex, h]
    · simp only [stringsIndex, h, if_false]
      constructor
      · intro h0; exact absurd h0 (by decide)
      · rintro ⟨a, b, hab⟩
        have := congrArg List.length hab
        simp at this
        exact absurd (List.length_eq_zero.mp (by omega)) h
  | cons c cs ih =>
    by_cases hp : substr.isPrefixOf (c :: cs) = true
    · simp only [stringsIndex, hp, if_true, le_refl, true_iff]
      obtain ⟨t, ht⟩ := List.isPrefixOf_iff_prefix.mp hp
      exact ⟨[], t, by simp [ht]⟩
    · simp only [stringsIndex, hp, if_false]
      constructor
      · intro h
        by_cases h0 : 0 ≤ stringsIndex cs substr
        · obtain ⟨a, b, hab⟩ := ih.mp h0
          exact ⟨c :: a, b, by simp [hab]⟩
        · simp [h0] at h
      · rintro ⟨a, b, hab⟩
        cases a with
        | nil =>
          exfalso; apply hp
          exact List.isPrefixOf_iff_prefix.mpr ⟨b, by simpa using hab.symm⟩
        | cons a0 a =>
          have hcs : cs = a ++ substr ++ b := by
            simp at hab; simpa using hab.2
          have h0 : 0 ≤ stringsIndex cs substr := ih.mpr ⟨a, b, hcs⟩
          simp only [h0, if_true]
          omega

/-- The meaning of `strings.Contains`. -/
theorem stringsContains_iff (s substr : GoString) :
    stringsContains s substr = true ↔ ∃ a b, s = a ++ substr ++ b := by
  simp [stringsContains, stringsIndex_nonneg_iff]

/-- The guard `strings.Contains(r, "/")` holds exactly when `/` occurs in `r`. -/
theorem stringsContains_slash (s : GoString) :
    stringsContains s slash = true ↔ '/' ∈ s := by
  rw [stringsContains_iff]
  constructor
  · rintro ⟨a, b, rfl⟩; simp [slash]
  · intro h
    obtain ⟨a, b, hab⟩ := List.append_of_mem h
    exact ⟨a, b, by simp [hab, slash]⟩

/-- Under the guard `strings.Contains(r, "/")` the slice bounds built from
`strings.LastIndex(r, "/")` are in range. -/
theorem stringsLastIndex_slash_bounds (s : GoString) (h : stringsContains s slash = true) :
    0 ≤ stringsLastIndex s slash ∧ stringsLastIndex s slash + 1 ≤ (s.length : Int) := by
  obtain ⟨a, b, hab, _, hidx⟩ := (stringsLastIndex_slash s).2 ((stringsContains_slash s).mp h)
  rw [hidx]
  constructor
  · exact Int.natCast_nonneg _
  · have : s.length = a.length + (b.length + 1) := by rw [hab]; simp
    omega

/-- A string has at most one cut at a `/` that no other `/` follows. -/
theorem last_slash_unique (a b a' b' : GoString) (h : a ++ '/' :: b = a' ++ '/' :: b')
    (hb : '/' ∉ b) (hb' : '/' ∉ b') : a = a' ∧ b = b' := by
  induction a generalizing a' with
  | nil =>
    cases a' with
    | nil => simpa using h
    | cons x xs =>
      simp at h
      exact absurd (by rw [h.2]; simp) hb
  | cons y ys ih =>
    cases a' with
    | nil =>
      simp at h
      exact absurd (by rw [← h.2]; simp) hb'
    | cons x xs =>
      simp at h
      obtain ⟨rfl, h2⟩ := h
      obtain ⟨rfl, rfl⟩ := ih xs h2
      exact ⟨rfl, rfl⟩

/-- The two slices of a repository identifier at its last `/`. -/
theorem split_at_last_slash (r : GoString) (h : '/' ∈ r) :
    ∃ a b, r = a ++ '/' :: b ∧ '/' ∉ b ∧ getProjectName r = a ∧ lastSegment r = b := by
  obtain ⟨a, b, hab, hb, hidx⟩ := (stringsLastIndex_slash r).2 h
  refine ⟨a, b, hab, hb, ?_, ?_⟩
  · have hc : stringsContains r slash = true := (stringsContains_slash r).mpr h
    simp only [getProjectName, hc, if_true, sliceTo, hidx, Int.toNat_ofNat]
    rw [hab]; simp
  · simp only [lastSegment, sliceFrom, hidx]
    have : ((a.length : Int) + 1).toNat = a.length + 1 := by omega
    rw [this, hab]
    simp

/-- C4. For a repository identifier `r` that contains `/`, `getProjectName r` is the
part of `r` before its last `/`: `getProjectName r ++ "/" ++ lastSegment r = r`, the
last segment contains no `/`, and this is the only such cut of `r`.  For an
identifier without `/`, `getProjectName r` is the empty string. -/
theorem getProjectName_spec (r : GoString) :
    ('/' ∈ r →
      getProjectName r ++ slash ++ lastSegment r = r ∧ '/' ∉ lastSegment r ∧
      ∀ a b, r = a ++ slash ++ b → '/' ∉ b → getProjectName r = a ∧ lastSegment r = b) ∧
    ('/' ∉ r → getProjectName r = []) := by
  constructor
  · intro h
    obtain ⟨a, b, hab, hb, hp, hl⟩ := split_at_last_slash r h
    rw [hp, hl]
    refine ⟨by simp [slash, hab], hb, ?_⟩
    intro a' b' hab' hb'
    have := last_slash_unique a b a' b' (by rw [← hab, hab']; simp [slash]) hb hb'
    exact this
  · intro h
    have hc : ¬ stringsContains r slash = true := fun e => h ((stringsContains_slash r).mp e)
    simp [getProjectName, hc]

theorem getProjectName_spec_witness :
    getProjectName "lib/tools/app".toList ++ slash ++ lastSegment "lib/tools/app".toList
        = "lib/tools/app".toList ∧
      getProjectName "lib/tools/app".toList = "lib/tools".toList ∧
      getProjectName "app".toList = [] :=
  ⟨((getProjectName_spec "lib/tools/app".toList).1 (by decide)).1,
    (((getProjectName_spec "lib/tools/app".toList).1 (by decide)).2.2
      "lib/tools".toList "app".toList (by decide) (by decide)).1,
    (getProjectName_spec "app".toList).2 (by decide)⟩

theorem char_lt_iff (a b : Char) : a < b ↔ a.toNat < b.toNat := Iff.rfl

/-- The order of `sort.Strings` is the lexicographic order of lists of characters. -/
theorem stringLess_iff_lt (a b : GoString) : stringLess a b = true ↔ List.lt a b := by
  induction a generalizing b with
  | nil =>
    cases b with
    | nil => simp only [stringLess]; constructor
             · intro h; cases h
             · intro h; cases h
    | cons y ys => simp only [stringLess, true_iff]; exact List.lt.nil y ys
  | cons x xs ih =>
    cases b with
    | nil => simp only [stringLess]; constructor
             · intro h; cases h
             · intro h; cases h
    | cons y ys =>
      simp only [stringLess]
      by_cases h1 : x.toNat < y.toNat
      · simp only [h1, if_true, true_iff]
        exact List.lt.head xs ys ((char_lt_iff x y).mpr h1)
      · by_cases h2 : y.toNat < x.toNat
        · simp only [h1, h2, if_false, if_true]
          constructor
          · intro h; cases h
          · intro h
            cases h with
            | head _ _ h => exact absurd ((char_lt_iff x y).mp h) h1
            | tail _ h' _ => exact absurd ((char_lt_iff y x).mpr h2) h'
        · simp only [h1, h2, if_false]
          rw [ih ys]
          constructor
          · intro h
            exact List.lt.tail (fun e => h1 ((char_lt_iff x y).mp e))
              (fun e => h2 ((char_lt_iff y x).mp e)) h
          · intro h
            cases h with
            | head _ _ h => exact absurd ((char_lt_iff x y).mp h) h1
            | tail _ _ h => exact h

/-! ## The order of `sort.Strings` -/

theorem stringLE_total (a b : GoString) : stringLE a b ∨ stringLE b a := by
  unfold stringLE
  induction a generalizing b with
  | nil => cases b <;> simp [stringLess]
  | cons x xs ih =>
    cases b with
    | nil => simp [stringLess]
    | cons y ys =>
      simp only [stringLess]
      by_cases h1 : x.toNat < y.toNat
      · have h2 : ¬ y.toNat < x.toNat := by omega
        simp [h1, h2]
      · by_cases h2 : y.toNat < x.toNat
        · simp [h1, h2]
        · simp only [h1, h2, if_false]
          exact ih ys

theorem stringLE_trans (a b c : GoString) (hab : stringLE a b) (hbc : stringLE b c) :
    stringLE a c := by
  unfold stringLE at *
  induction a generalizing b c with
  | nil => cases c <;> simp [stringLess]
  | cons x xs ih =>
    cases b with
    | nil => simp [stringLess] at hab
    | cons y ys =>
      cases c with
      | nil => simp [stringLess] at hbc
      | cons z zs =>
        simp only [stringLess] at hab hbc ⊢
        by_cases h1 : y.toNat < x.toNat
        · simp [h1] at hab
        · by_cases h2 : z.toNat < y.toNat
          · simp [h2] at hbc
          · by_cases h3 : x.toNat < y.toNat
            · have h4 : ¬ z.toNat < x.toNat := by omega
              have h5 : x.toNat < z.toNat ∨ ¬ x.toNat < z.toNat := em _
              rcases h5 with h5 | h5
              · simp [h4, h5]
              · exfalso; omega
            · by_cases h4 : y.toNat < z.toNat
              · have h5 : ¬ z.toNat < x.toNat := by omega
                have h6 : x.toNat < z.toNat := by omega
                simp [h5, h6]
              · have h5 : ¬ z.toNat < x.toNat := by omega
                have h6 : ¬ x.toNat < z.toNat := by omega
                simp only [h1, h2, h3, h4, h5, h6, if_false] at hab hbc ⊢
                exact ih ys zs hab hbc

theorem stringLE_antisymm (a b : GoString) (hab : stringLE a b) (hba : stringLE b a) :
    a = b := by
  unfold stringLE at *
  induction a generalizing b with
  | nil => cases b with
    | nil => rfl
    | cons y ys => simp [stringLess] at hba
  | cons x xs ih =>
    cases b with
    | nil => simp [stringLess] at hab
    | cons y ys =>
      simp only [stringLess] at hab hba
      by_cases h1 : y.toNat < x.toNat
      · simp [h1] at hab
      · by_cases h2 : x.toNat < y.toNat
        · simp [h2] at hba
        · simp only [h1, h2, if_false] at hab hba
          have hxy : x = y := by
            apply Char.ext
            apply UInt32.ext
            show x.toNat = y.toNat
            omega
          rw [hxy, ih ys hab hba]

/-- What `sort.Strings` returns is in ascending order. -/
theorem sortStrings_sorted (l : List GoString) : (sortStrings l).Sorted stringLE := by
  haveI : IsTotal GoString stringLE := ⟨stringLE_total⟩
  haveI : IsTrans GoString stringLE := ⟨stringLE_trans⟩
  exact List.sorted_insertionSort stringLE l

/-- What `sort.Strings` returns is a rearrangement of its argument. -/
theorem sortStrings_perm (l : List GoString) : (sortStrings l).Perm l :=
  List.perm_insertionSort stringLE l

/-- The sorted arrangement of a list of strings is unique, so `sortStrings` is the list
that any implementation of `sort.Strings` produces. -/
theorem sortStrings_unique (l l' : List GoString) (hperm : l'.Perm l)
    (hsorted : l'.Sorted stringLE) : l' = sortStrings l := by
  haveI : IsAntisymm GoString stringLE := ⟨stringLE_antisymm⟩
  exact List.eq_of_perm_of_sorted (hperm.trans (sortStrings_perm l).symm) hsorted
    (sortStrings_sorted l)

/-! ## GetTags -/

/-- C7. When `GetTags` reaches the registry and `ListTag` returns the tags `ts`, in
whatever order, the handler serves a list that is in ascending lexicographic order and
is a permutation of `ts`: the same tags with the same multiplicities. -/
theorem GetTags_sorted_perm {σ : Type} (env : Env σ) (project : Project)
    (rc : Repository σ) (ts : List GoString) (s : σ)
    (hrepo : env.GetString "repo_name".toList ≠ [])
    (hproject : env.GetProjectByName (getProjectName (env.GetString "repo_name".toList))
      = Except.ok (some project))
    (hview : project.Public ≠ 0 ∨ ∃ userID, env.ValidateUser = Except.ok userID ∧
      env.checkProjectPermission userID project.ProjectID = true)
    (hclient : initRepositoryClient env (env.GetString "repo_name".toList) = Fallible.ok rc)
    (hlist : rc.ListTag env.registry = (Except.ok ts, s)) :
    ∃ served, (GetTags env).outcome = Outcome.returned (some served) ∧
      served.Sorted stringLE ∧ served.Perm ts := by
  have hgate : @viewGate σ (List GoString) env project = none := by
    unfold viewGate
    rcases hview with h | ⟨userID, hu, hp⟩
    · simp [h]
    · by_cases h0 : project.Public = 0
      · simp [h0, hu, hp]
      · simp [h0]
  have hlen : ¬ (env.GetString "repo_name".toList).length = 0 := by
    simpa [List.length_eq_zero] using hrepo
  refine ⟨sortStrings ts, ?_, sortStrings_sorted ts, sortStrings_perm ts⟩
  simp only [GetTags, hlen, if_false, hproject, hgate, hclient, hlist, Result.after]

theorem GetTags_sorted_perm_witness :
    ∃ served,
      (GetTags (sampleEnv publicLib [] ["v2".toList, "v10".toList, "v1".toList])).outcome
        = Outcome.returned (some served) ∧
      served.Sorted stringLE ∧
      served.Perm ["v2".toList, "v10".toList, "v1".toList] :=
  GetTags_sorted_perm (sampleEnv publicLib [] ["v2".toList, "v10".toList, "v1".toList])
    publicLib sampleRegistry ["v2".toList, "v10".toList, "v1".toList]
    ["v2".toList, "v10".toList, "v1".toList]
    (by decide) rfl (Or.inl (by decide)) rfl rfl

/-! ## Delete -/

theorem deleteGate_none {σ : Type} (env : Env σ) (project : Project)
    (hadmin : project.Public ≠ 0 ∨ ∃ userID, env.ValidateUser = Except.ok userID ∧
      env.hasProjectAdminRole userID project.ProjectID = true) :
    deleteGate env project = none := by
  unfold deleteGate
  rcases hadmin with h | ⟨userID, hu, hp⟩
  · simp [h]
  · by_cases h0 : project.Public = 0
    · simp [h0, hu, hp]
    · simp [h0]

/-- Once the registry client could be built, the acting user of `Delete` is defined. -/
theorem deleteUser_of_client {σ : Type} (env : Env σ) (repoName : GoString)
    (rc : Repository σ) (hclient : initRepositoryClient env repoName = Fallible.ok rc) :
    ∃ user, deleteUser env = some user := by
  unfold deleteUser
  unfold initRepositoryClient at hclient
  cases hb : env.BasicAuth with
  | some up => exact ⟨up.1, rfl⟩
  | none =>
    rw [hb] at hclient
    cases hu : getUsername env with
    | ok user => exact ⟨user, rfl⟩
    | err e => rw [hu] at hclient; simp at hclient
    | panic => rw [hu] at hclient; simp at hclient

/-- The loop over tags whose deletions all succeed issues the three calls of every tag,
in order, and does not stop. -/
theorem deleteLoop_success {σ : Type} (rc : Repository σ) (user projectName repoName : GoString)
    (tags : List GoString) (s : σ) (h : (registryAfter rc tags s).isSome = true) :
    deleteLoop rc user projectName repoName tags s
      = (tags.flatMap (deletedTagEvents user projectName repoName), none) := by
  induction tags generalizing s with
  | nil => simp [deleteLoop]
  | cons t ts ih =>
    unfold registryAfter at h
    unfold deleteLoop
    rcases hd : rc.DeleteTag t s with ⟨r, s'⟩
    rw [hd] at h
    cases r with
    | some e => simp at h
    | none =>
      simp only at h ⊢
      rw [ih s' h]
      simp [List.flatMap_cons]

/-- The loop stops at the first tag whose deletion fails: the tags before it got their
three calls, the failing tag only its `DeleteTag`, the tags after it nothing. -/
theorem deleteLoop_failure {σ : Type} (rc : Repository σ) (user projectName repoName : GoString)
    (pre : List GoString) (tk : GoString) (post : List GoString) (s sk : σ) (e : GoError)
    (hpre : registryAfter rc pre s = some sk) (hfail : (rc.DeleteTag tk sk).1 = some e) :
    deleteLoop rc user projectName repoName (pre ++ tk :: post) s
      = (pre.flatMap (deletedTagEvents user projectName repoName) ++ [Event.DeleteTag tk],
          some (abortOfError e)) := by
  induction pre generalizing s with
  | nil =>
    simp only [registryAfter, Option.some.injEq] at hpre
    subst hpre
    rcases hd : rc.DeleteTag tk s with ⟨r, s'⟩
    rw [hd] at hfail
    simp only at hfail
    subst hfail
    simp [deleteLoop, hd]
  | cons t ts ih =>
    unfold registryAfter at hpre
    rcases hd : rc.DeleteTag t s with ⟨r, s'⟩
    rw [hd] at hpre
    cases r with
    | some e' => simp at hpre
    | none =>
      simp only at hpre
      have hrec := ih s' hpre
      simp only [List.cons_append, deleteLoop, hd, List.flatMap_cons, List.append_assoc]
      show (_ ++ (deleteLoop rc user projectName repoName (ts ++ tk :: post) s').1,
        (deleteLoop rc user projectName repoName (ts ++ tk :: post) s').2) = _
      rw [hrec]

theorem countP_deletedTagEvents (user projectName repoName : GoString) (tags : List GoString) :
    (tags.flatMap (deletedTagEvents user projectName repoName)).countP Event.isDeleteTag
        = tags.length ∧
    (tags.flatMap (deletedTagEvents user projectName repoName)).countP Event.isReplication
        = tags.length ∧
    (tags.flatMap (deletedTagEvents user projectName repoName)).countP Event.isAccessLog
        = tags.length ∧
    (tags.flatMap (deletedTagEvents user projectName repoName)).countP Event.isRefresh
        = 0 := by
  induction tags with
  | nil => simp
  | cons t ts ih =>
    obtain ⟨h1, h2, h3, h4⟩ := ih
    simp only [List.flatMap_cons, List.countP_append, h1, h2, h3, h4, List.length_cons]
    simp [deletedTagEvents, List.countP_cons, Event.isDeleteTag, Event.isReplication,
      Event.isAccessLog, Event.isRefresh]
    omega

/-- A `Delete` whose repository name is given and whose project is found: the role
check and what follows it. -/
theorem Delete_found {σ : Type} (env : Env σ) (project : Project)
    (hrepo : env.GetString "repo_name".toList ≠ [])
    (hproject : env.GetProjectByName (getProjectName (env.GetString "repo_name".toList))
      = Except.ok (some project)) :
    Delete env =
      match deleteGate env project with
      | some stop => ⟨[], stop⟩
      | none =>
        Result.after [Event.InitRepositoryClient (env.GetString "repo_name".toList)]
          (match initRepositoryClient env (env.GetString "repo_name".toList) with
          | Fallible.err _ => ⟨[], Outcome.aborted 500 "internal error".toList⟩
          | Fallible.panic => ⟨[], Outcome.panicked⟩
          | Fallible.ok rc =>
            if (env.GetString "tag".toList).length = 0 then
              Result.after [Event.ListTag]
                (match rc.ListTag env.registry with
                | (Except.error e, _) => ⟨[], abortOfError e⟩
                | (Except.ok tagList, s) =>
                  if tagList.length = 0 then ⟨[], Outcome.aborted 404 statusTextNotFound⟩
                  else deleteTags env rc (getProjectName (env.GetString "repo_name".toList))
                    (env.GetString "repo_name".toList) tagList s)
            else deleteTags env rc (getProjectName (env.GetString "repo_name".toList))
              (env.GetString "repo_name".toList) [env.GetString "tag".toList]
              env.registry) := by
  have hlen : ¬ (env.GetString "repo_name".toList).length = 0 := by
    intro h; exact hrepo (List.length_eq_zero.mp h)
  simp only [Delete, hlen, if_false, hproject]

/-- An authorized `Delete` whose registry client could be built: what is left to run. -/
theorem Delete_authorized {σ : Type} (env : Env σ) (project : Project) (rc : Repository σ)
    (hrepo : env.GetString "repo_name".toList ≠ [])
    (hproject : env.GetProjectByName (getProjectName (env.GetString "repo_name".toList))
      = Except.ok (some project))
    (hadmin : project.Public ≠ 0 ∨ ∃ userID, env.ValidateUser = Except.ok userID ∧
      env.hasProjectAdminRole userID project.ProjectID = true)
    (hclient : initRepositoryClient env (env.GetString "repo_name".toList) = Fallible.ok rc) :
    Delete env = Result.after [Event.InitRepositoryClient (env.GetString "repo_name".toList)]
      (if (env.GetString "tag".toList).length = 0 then
        Result.after [Event.ListTag]
          (match rc.ListTag env.registry with
          | (Except.error e, _) => ⟨[], abortOfError e⟩
          | (Except.ok tagList, s) =>
            if tagList.length = 0 then ⟨[], Outcome.aborted 404 statusTextNotFound⟩
            else deleteTags env rc (getProjectName (env.GetString "repo_name".toList))
              (env.GetString "repo_name".toList) tagList s)
      else deleteTags env rc (getProjectName (env.GetString "repo_name".toList))
        (env.GetString "repo_name".toList) [env.GetString "tag".toList] env.registry) := by
  rw [Delete_found env project hrepo hproject]
  simp only [deleteGate_none env project hadmin, hclient]

/-- C1 (as stated, refuted). A public project, an anonymous caller with no administrator
role on any project, and an explicit tag: `Delete` is not rejected.  It builds the
registry client, deletes the tag, starts the replication trigger, the access-log record
and the cache refresh, and returns normally. -/
theorem Delete_public_project_not_gated :
    publicLib.Public = 1 ∧
    (∀ userID projectID,
      (anonymousEnv publicLib "latest".toList ["latest".toList]).hasProjectAdminRole
        userID projectID = false) ∧
    Delete (anonymousEnv publicLib "latest".toList ["latest".toList]) =
      ⟨[Event.InitRepositoryClient "lib/app".toList,
        Event.DeleteTag "latest".toList,
        Event.TriggerReplicationByRepository "lib/app".toList ["latest".toList]
          "delete".toList,
        Event.AccessLog [] "lib".toList "lib/app".toList "latest".toList "delete".toList,
        Event.RefreshCatalogCache],
       Outcome.returned none⟩ :=
  ⟨rfl, fun _ _ => rfl, by decide⟩

/-- C1 (amended). On a private project tag deletion requires the administrator role:
when the project of the repository is private and `ValidateUser` yields no user id that
has the administrator role on it, `Delete` issues no call at all (no registry client,
no `ListTag`, no `DeleteTag`, no side effect) and is rejected: as forbidden (403) when
`ValidateUser` yields a user id, otherwise with the abort of `ValidateUser` itself. -/
theorem Delete_private_requires_admin {σ : Type} (env : Env σ) (project : Project)
    (hrepo : env.GetString "repo_name".toList ≠ [])
    (hproject : env.GetProjectByName (getProjectName (env.GetString "repo_name".toList))
      = Except.ok (some project))
    (hprivate : project.Public = 0)
    (hrole : ∀ userID, env.ValidateUser = Except.ok userID →
      env.hasProjectAdminRole userID project.ProjectID = false) :
    (Delete env).trace = [] ∧
    (∀ userID, env.ValidateUser = Except.ok userID →
      (Delete env).outcome = Outcome.aborted 403 []) ∧
    (∀ code body, env.ValidateUser = Except.error (code, body) →
      (Delete env).outcome = Outcome.aborted code body) := by
  rw [Delete_found env project hrepo hproject]
  cases hv : env.ValidateUser with
  | error ab =>
    obtain ⟨code, body⟩ := ab
    have hg : deleteGate env project = some (Outcome.aborted code body) := by
      simp [deleteGate, hprivate, hv]
    rw [hg]
    simp
  | ok userID =>
    have hg : deleteGate env project = some (Outcome.aborted 403 []) := by
      simp [deleteGate, hprivate, hv, hrole userID hv]
    rw [hg]
    simp

theorem Delete_private_requires_admin_witness :
    (Delete (sampleEnv guardedLib "latest".toList ["latest".toList])).trace = [] ∧
    (Delete (sampleEnv guardedLib "latest".toList ["latest".toList])).outcome
      = Outcome.aborted 403 [] :=
  have h := Delete_private_requires_admin
    (sampleEnv guardedLib "latest".toList ["latest".toList]) guardedLib
    (by decide) rfl rfl
    (fun userID hu => by
      have h7 : userID = 7 := by injection hu with h; exact h.symm
      subst h7; rfl)
  ⟨h.1, h.2.1 7 rfl⟩

/-- C2. An authorized `Delete` in which every `DeleteTag` call succeeds.  With an
explicit tag it issues exactly one `DeleteTag`, one replication trigger (operation
"delete", tag set = that tag) and one access-log record (action "delete", that tag),
then one cache refresh.  With no tag and a registry listing of `N ≥ 1` tags it issues,
for each listed tag in order, its `DeleteTag`, its replication trigger and its
access-log record (`N` of each), then exactly one cache refresh, after the loop.  In
both cases the handler returns normally. -/
theorem Delete_all_succeed {σ : Type} (env : Env σ) (project : Project) (rc : Repository σ)
    (hrepo : env.GetString "repo_name".toList ≠ [])
    (hproject : env.GetProjectByName (getProjectName (env.GetString "repo_name".toList))
      = Except.ok (some project))
    (hadmin : project.Public ≠ 0 ∨ ∃ userID, env.ValidateUser = Except.ok userID ∧
      env.hasProjectAdminRole userID project.ProjectID = true)
    (hclient : initRepositoryClient env (env.GetString "repo_name".toList) = Fallible.ok rc) :
    ∃ user, deleteUser env = some user ∧
      (env.GetString "tag".toList ≠ [] →
        (rc.DeleteTag (env.GetString "tag".toList) env.registry).1 = none →
        Delete env =
          ⟨[Event.InitRepositoryClient (env.GetString "repo_name".toList),
            Event.DeleteTag (env.GetString "tag".toList),
            Event.TriggerReplicationByRepository (env.GetString "repo_name".toList)
              [env.GetString "tag".toList] "delete".toList,
            Event.AccessLog user (getProjectName (env.GetString "repo_name".toList))
              (env.GetString "repo_name".toList) (env.GetString "tag".toList)
              "delete".toList,
            Event.RefreshCatalogCache],
           Outcome.returned none⟩) ∧
      (env.GetString "tag".toList = [] →
        ∀ (tags : List GoString) (s : σ),
          rc.ListTag env.registry = (Except.ok tags, s) → tags ≠ [] →
          (registryAfter rc tags s).isSome = true →
          Delete env =
            ⟨[Event.InitRepositoryClient (env.GetString "repo_name".toList), Event.ListTag]
              ++ tags.flatMap (fun t =>
                  [Event.DeleteTag t,
                   Event.TriggerReplicationByRepository (env.GetString "repo_name".toList)
                     [t] "delete".toList,
                   Event.AccessLog user (getProjectName (env.GetString "repo_name".toList))
                     (env.GetString "repo_name".toList) t "delete".toList])
              ++ [Event.RefreshCatalogCache],
             Outcome.returned none⟩ ∧
          (Delete env).trace.countP Event.isDeleteTag = tags.length ∧
          (Delete env).trace.countP Event.isReplication = tags.length ∧
          (Delete env).trace.countP Event.isAccessLog = tags.length ∧
          (Delete env).trace.countP Event.isRefresh = 1) := by
  obtain ⟨user, huser⟩ := deleteUser_of_client env _ rc hclient
  have hD := Delete_authorized env project rc hrepo hproject hadmin hclient
  refine ⟨user, huser, ?_, ?_⟩
  · intro htag hdel
    have hlen : ¬ (env.GetString "tag".toList).length = 0 := by
      intro h; exact htag (List.length_eq_zero.mp h)
    have hsome : (registryAfter rc [env.GetString "tag".toList] env.registry).isSome = true := by
      rcases hd : rc.DeleteTag (env.GetString "tag".toList) env.registry with ⟨r, s'⟩
      rw [hd] at hdel
      simp only at hdel
      subst hdel
      simp only [registryAfter, hd, Option.isSome_some]
    rw [hD]
    simp only [hlen, if_false, deleteTags, huser,
      deleteLoop_success rc user _ _ _ _ hsome, Result.after]
    simp [deletedTagEvents, RepOpDelete]
  · intro htag tags s hlist hne hsome
    have hlen : ¬ tags.length = 0 := by
      intro h; exact hne (List.length_eq_zero.mp h)
    have hEq : Delete env =
        ⟨[Event.InitRepositoryClient (env.GetString "repo_name".toList), Event.ListTag]
          ++ tags.flatMap (deletedTagEvents user
              (getProjectName (env.GetString "repo_name".toList))
              (env.GetString "repo_name".toList))
          ++ [Event.RefreshCatalogCache],
         Outcome.returned none⟩ := by
      rw [hD]
      simp only [htag, List.length_nil, if_true, hlist, hlen, if_false, deleteTags, huser,
        deleteLoop_success rc user _ _ _ _ hsome, Result.after]
      simp
    obtain ⟨c1, c2, c3, c4⟩ := countP_deletedTagEvents user
      (getProjectName (env.GetString "repo_name".toList)) (env.GetString "repo_name".toList) tags
    refine ⟨?_, ?_, ?_, ?_, ?_⟩
    · rw [hEq]; rfl
    · rw [hEq]; simp only [List.countP_append, c1]
      simp [List.countP_cons, Event.isDeleteTag]
    · rw [hEq]; simp only [List.countP_append, c2]
      simp [List.countP_cons, Event.isReplication]
    · rw [hEq]; simp only [List.countP_append, c3]
      simp [List.countP_cons, Event.isAccessLog]
    · rw [hEq]; simp only [List.countP_append, c4]
      simp [List.countP_cons, Event.isRefresh]

theorem Delete_all_succeed_witness :
    Delete (sampleEnv privateLib [] ["v1".toList, "v2".toList]) =
      ⟨[Event.InitRepositoryClient "lib/app".toList, Event.ListTag,
        Event.DeleteTag "v1".toList,
        Event.TriggerReplicationByRepository "lib/app".toList ["v1".toList] "delete".toList,
        Event.AccessLog "alice".toList "lib".toList "lib/app".toList "v1".toList
          "delete".toList,
        Event.DeleteTag "v2".toList,
        Event.TriggerReplicationByRepository "lib/app".toList ["v2".toList] "delete".toList,
        Event.AccessLog "alice".toList "lib".toList "lib/app".toList "v2".toList
          "delete".toList,
        Event.RefreshCatalogCache],
       Outcome.returned none⟩ := by
  obtain ⟨user, huser, _, hall⟩ := Delete_all_succeed
    (sampleEnv privateLib [] ["v1".toList, "v2".toList]) privateLib sampleRegistry
    (by decide) rfl (Or.inr ⟨7, rfl, rfl⟩) rfl
  have hu : user = "alice".toList := by
    have : deleteUser (sampleEnv privateLib [] ["v1".toList, "v2".toList])
        = some "alice".toList := rfl
    rw [this] at huser
    injection huser with h
    exact h.symm
  subst hu
  exact (hall rfl ["v1".toList, "v2".toList] ["v1".toList, "v2".toList] rfl (by decide)
    (by decide)).1

/-- C3. An authorized `Delete` with target tags `pre ++ tk :: post` (the explicit tag, or
the registry listing when no tag is given) in which `DeleteTag` succeeds for every tag
of `pre` and fails for `tk`: each tag of `pre` got its `DeleteTag`, its replication
trigger and its access-log record, `tk` got only its `DeleteTag`, and nothing is
issued after that: no `DeleteTag` for the tags of `post`, no replication trigger or
access-log record for `tk` or `post`, no cache refresh.  The handler ends with an
error: the status code and detail of the registry error when it is structured,
otherwise 500 with "internal error". -/
theorem Delete_stops_at_first_failure {σ : Type} (env : Env σ) (project : Project)
    (rc : Repository σ) (tags pre post : List GoString) (tk : GoString) (s sk : σ)
    (e : GoError)
    (hrepo : env.GetString "repo_name".toList ≠ [])
    (hproject : env.GetProjectByName (getProjectName (env.GetString "repo_name".toList))
      = Except.ok (some project))
    (hadmin : project.Public ≠ 0 ∨ ∃ userID, env.ValidateUser = Except.ok userID ∧
      env.hasProjectAdminRole userID project.ProjectID = true)
    (hclient : initRepositoryClient env (env.GetString "repo_name".toList) = Fallible.ok rc)
    (htargets :
      (env.GetString "tag".toList ≠ [] ∧ tags = [env.GetString "tag".toList] ∧
        s = env.registry) ∨
      (env.GetString "tag".toList = [] ∧ rc.ListTag env.registry = (Except.ok tags, s)))
    (hsplit : tags = pre ++ tk :: post)
    (hpre : registryAfter rc pre s = some sk)
    (hfail : (rc.DeleteTag tk sk).1 = some e) :
    ∃ user, deleteUser env = some user ∧
      (Delete env).trace =
        Event.InitRepositoryClient (env.GetString "repo_name".toList)
          :: (if env.GetString "tag".toList = [] then [Event.ListTag] else [])
          ++ pre.flatMap (fun t =>
              [Event.DeleteTag t,
               Event.TriggerReplicationByRepository (env.GetString "repo_name".toList)
                 [t] "delete".toList,
               Event.AccessLog user (getProjectName (env.GetString "repo_name".toList))
                 (env.GetString "repo_name".toList) t "delete".toList])
          ++ [Event.DeleteTag tk] ∧
      (∀ code detail, e = GoError.registry code detail →
        (Delete env).outcome = Outcome.aborted code detail) ∧
      (∀ msg, e = GoError.plain msg →
        (Delete env).outcome = Outcome.aborted 500 "internal error".toList) := by
  obtain ⟨user, huser⟩ := deleteUser_of_client env _ rc hclient
  have hD := Delete_authorized env project rc hrepo hproject hadmin hclient
  have hloop := deleteLoop_failure rc user
    (getProjectName (env.GetString "repo_name".toList)) (env.GetString "repo_name".toList)
    pre tk post s sk e hpre hfail
  have hne : ¬ tags.length = 0 := by rw [hsplit]; simp
  have hout : (Delete env).outcome = abortOfError e := by
    rw [hD]
    rcases htargets with ⟨htag, hone, hs⟩ | ⟨htag, hlist⟩
    · have hlen : ¬ (env.GetString "tag".toList).length = 0 := by
        intro h; exact htag (List.length_eq_zero.mp h)
      rw [← hone, hsplit, ← hs]
      simp only [hlen, if_false, deleteTags, huser, hloop, Result.after]
    · rw [← hsplit] at hloop
      simp only [htag, List.length_nil, if_true, hlist, hne, if_false, deleteTags, huser,
        hloop, Result.after]
  refine ⟨user, huser, ?_, ?_, ?_⟩
  · rw [hD]
    rcases htargets with ⟨htag, hone, hs⟩ | ⟨htag, hlist⟩
    · have hlen : ¬ (env.GetString "tag".toList).length = 0 := by
        intro h; exact htag (List.length_eq_zero.mp h)
      rw [← hone, hsplit, ← hs]
      simp only [hlen, if_false, htag, deleteTags, huser, hloop, Result.after]
      rfl
    · rw [← hsplit] at hloop
      simp only [htag, List.length_nil, if_true, hlist, hne, if_false, deleteTags, huser,
        hloop, Result.after]
      rfl
  · intro code detail he
    rw [hout, he]; rfl
  · intro msg he
    rw [hout, he]; rfl

theorem Delete_stops_at_first_failure_witness :
    (Delete (sampleEnv privateLib [] ["v1".toList, "locked".toList, "v3".toList])).trace =
      [Event.InitRepositoryClient "lib/app".toList, Event.ListTag,
        Event.DeleteTag "v1".toList,
        Event.TriggerReplicationByRepository "lib/app".toList ["v1".toList] "delete".toList,
        Event.AccessLog "alice".toList "lib".toList "lib/app".toList "v1".toList
          "delete".toList,
        Event.DeleteTag "locked".toList] ∧
    (Delete (sampleEnv privateLib [] ["v1".toList, "locked".toList, "v3".toList])).outcome =
      Outcome.aborted 405 "tag is locked".toList := by
  obtain ⟨user, huser, htrace, hout⟩ := Delete_stops_at_first_failure
    (sampleEnv privateLib [] ["v1".toList, "locked".toList, "v3".toList]) privateLib
    sampleRegistry ["v1".toList, "locked".toList, "v3".toList] ["v1".toList] ["v3".toList]
    "locked".toList ["v1".toList, "locked".toList, "v3".toList]
    ["locked".toList, "v3".toList] (GoError.registry 405 "tag is locked".toList)
    (by decide) rfl (Or.inr ⟨7, rfl, rfl⟩) rfl (Or.inr ⟨rfl, rfl⟩) rfl rfl rfl
  have hu : user = "alice".toList := by
    have : deleteUser (sampleEnv privateLib [] ["v1".toList, "locked".toList, "v3".toList])
        = some "alice".toList := rfl
    rw [this] at huser
    injection huser with h
    exact h.symm
  subst hu
  exact ⟨htrace, hout.1 405 "tag is locked".toList rfl⟩

/-- C8. An authorized `Delete` with no explicit tag whose registry listing succeeds and
is empty ends with a not-found error (404, "Not Found"): after building the client and
listing the tags it issues nothing, so no `DeleteTag`, no replication trigger, no
access-log record and no cache refresh, and it does not return normally. -/
theorem Delete_empty_listing {σ : Type} (env : Env σ) (project : Project)
    (rc : Repository σ) (s : σ)
    (hrepo : env.GetString "repo_name".toList ≠ [])
    (hproject : env.GetProjectByName (getProjectName (env.GetString "repo_name".toList))
      = Except.ok (some project))
    (hadmin : project.Public ≠ 0 ∨ ∃ userID, env.ValidateUser = Except.ok userID ∧
      env.hasProjectAdminRole userID project.ProjectID = true)
    (hclient : initRepositoryClient env (env.GetString "repo_name".toList) = Fallible.ok rc)
    (htag : env.GetString "tag".toList = [])
    (hlist : rc.ListTag env.registry = (Except.ok [], s)) :
    Delete env =
      ⟨[Event.InitRepositoryClient (env.GetString "repo_name".toList), Event.ListTag],
       Outcome.aborted 404 "Not Found".toList⟩ := by
  rw [Delete_authorized env project rc hrepo hproject hadmin hclient]
  simp only [htag, List.length_nil, if_true, hlist, Result.after]
  rfl

theorem Delete_empty_listing_witness :
    Delete (sampleEnv privateLib [] []) =
      ⟨[Event.InitRepositoryClient "lib/app".toList, Event.ListTag],
       Outcome.aborted 404 "Not Found".toList⟩ :=
  Delete_empty_listing (sampleEnv privateLib [] []) privateLib sampleRegistry []
    (by decide) rfl (Or.inr ⟨7, rfl, rfl⟩) rfl rfl rfl

/-! ## Get -/

/-- The test of line 96, in words. -/
theorem matchesQuery_iff (projectName q r : GoString) :
    matchesQuery projectName q r = true ↔
      '/' ∈ r ∧ hasSubstring (lastSegment r) q ∧ getProjectName r = projectName := by
  unfold matchesQuery
  by_cases h : stringsContains r slash = true
  · have hmem := (stringsContains_slash r).mp h
    simp only [h, Bool.true_and, Bool.and_eq_true, beq_iff_eq, stringsContains_iff,
      getProjectName, if_true, lastSegment, hasSubstring, hmem, true_and]
  · have hmem : ¬ '/' ∈ r := fun e => h ((stringsContains_slash r).mpr e)
    simp only [Bool.not_eq_true] at h
    simp [h, hmem]

/-- The test of line 109, in words. -/
theorem underProject_iff (projectName r : GoString) :
    underProject projectName r = true ↔ '/' ∈ r ∧ getProjectName r = projectName := by
  unfold underProject
  by_cases h : stringsContains r slash = true
  · have hmem := (stringsContains_slash r).mp h
    simp only [h, Bool.true_and, beq_iff_eq, getProjectName, if_true, hmem, true_and]
  · have hmem : ¬ '/' ∈ r := fun e => h ((stringsContains_slash r).mpr e)
    simp only [Bool.not_eq_true] at h
    simp [h, hmem]

theorem mem_searchLoop {σ : Type} (env : Env σ) (projectName q : GoString)
    (repoList : List GoString) (x : GoString) :
    x ∈ searchLoop env projectName q repoList ↔
      (x ∈ repoList ∧ '/' ∈ x ∧ hasSubstring (lastSegment x) q ∧
        getProjectName x = projectName) ∨
      (∃ r ∈ repoList, x ∈ env.GetRepoLabels r ∧ hasSubstring x q) := by
  induction repoList with
  | nil => simp [searchLoop]
  | cons r rest ih =>
    simp only [searchLoop, List.mem_append, ih, List.mem_filter, List.mem_cons,
      stringsContains_iff]
    have hhead : x ∈ (if matchesQuery projectName q r = true then [r] else []) ↔
        x = r ∧ '/' ∈ x ∧ hasSubstring (lastSegment x) q ∧ getProjectName x = projectName := by
      by_cases hm : matchesQuery projectName q r = true
      · rw [if_pos hm, List.mem_singleton]
        constructor
        · rintro rfl; exact ⟨rfl, (matchesQuery_iff _ _ _).mp hm⟩
        · exact fun h => h.1
      · rw [if_neg hm]
        simp only [List.not_mem_nil, false_iff]
        rintro ⟨rfl, h⟩
        exact hm ((matchesQuery_iff _ _ _).mpr h)
    rw [hhead]
    constructor
    · rintro ((⟨rfl, h⟩ | ⟨hl, hq⟩) | (⟨hx, h⟩ | ⟨r', hr', hl, hq⟩))
      · exact Or.inl ⟨Or.inl rfl, h⟩
      · exact Or.inr ⟨r, Or.inl rfl, hl, hq⟩
      · exact Or.inl ⟨Or.inr hx, h⟩
      · exact Or.inr ⟨r', Or.inr hr', hl, hq⟩
    · rintro (⟨hx | hx, h⟩ | ⟨r', hr' | hr', hl, hq⟩)
      · exact Or.inl (Or.inl ⟨hx, h⟩)
      · exact Or.inr (Or.inl ⟨hx, h⟩)
      · subst hr'; exact Or.inl (Or.inr ⟨hl, hq⟩)
      · exact Or.inr (Or.inr ⟨r', hr', hl, hq⟩)

theorem projectLoop_eq_filter (projectName : GoString) (repoList : List GoString) :
    projectLoop projectName repoList =
      repoList.filter (fun r => decide ('/' ∈ r ∧ getProjectName r = projectName)) := by
  induction repoList with
  | nil => rfl
  | cons r rest ih =>
    by_cases h : underProject projectName r = true
    · have h' := (underProject_iff _ _).mp h
      simp only [projectLoop, h, if_true, ih, List.filter_cons, h', and_self, decide_True,
        List.singleton_append]
    · have h' : ¬ ('/' ∈ r ∧ getProjectName r = projectName) :=
        fun e => h ((underProject_iff _ _).mpr e)
      simp only [projectLoop, h, if_false, ih, List.filter_cons, h', decide_False,
        List.nil_append]
      rfl

theorem getGate_none {σ : Type} (env : Env σ) (p : Project) (projectID : Int)
    (hview : p.Public ≠ 0 ∨
      (env.VerifySecret = true ∧ env.checkProjectPermission 1 projectID = true) ∨
      (env.VerifySecret = false ∧ ∃ userID, env.ValidateUser = Except.ok userID ∧
        env.checkProjectPermission userID projectID = true)) :
    getGate env p projectID = none := by
  unfold getGate
  by_cases h0 : p.Public = 0
  · rcases hview with h | ⟨hs, hp⟩ | ⟨hs, userID, hu, hp⟩
    · exact absurd h0 h
    · simp [h0, hs, hp]
    · simp [h0, hs, hu, hp]
  · simp [h0]

/-- A permitted `Get` on an existing project serves the list of lines 91-116. -/
theorem Get_permitted {σ : Type} (env : Env σ) (projectID : Int) (p : Project)
    (hid : env.GetInt64ProjectID = some projectID)
    (hproject : env.GetProjectByID projectID = Except.ok (some p))
    (hview : p.Public ≠ 0 ∨
      (env.VerifySecret = true ∧ env.checkProjectPermission 1 projectID = true) ∨
      (env.VerifySecret = false ∧ ∃ userID, env.ValidateUser = Except.ok userID ∧
        env.checkProjectPermission userID projectID = true)) :
    (Get env).outcome = Outcome.returned (some
      (listRepositories env p.Name (env.GetString "q".toList) env.GetRepoFromCache.1)) := by
  simp only [Get, hid, hproject, getGate_none env p projectID hview]

/-- The repositories of a project whose last path segment contains a query: the test of
line 96 holds for `x` exactly when `x` is the project name, a `/`, and a last segment
that is free of `/` and contains the query. -/
theorem project_segment_iff (p q x : GoString) :
    ('/' ∈ x ∧ hasSubstring (lastSegment x) q ∧ getProjectName x = p) ↔
      ∃ b, x = p ++ slash ++ b ∧ '/' ∉ b ∧ hasSubstring b q := by
  constructor
  · rintro ⟨hmem, hsub, hp⟩
    obtain ⟨a, b, hab, hb, ha, hl⟩ := split_at_last_slash x hmem
    refine ⟨b, ?_, hb, ?_⟩
    · rw [← hp, ha, hab]; simp [slash]
    · rw [← hl]; exact hsub
  · rintro ⟨b, hx, hb, hsub⟩
    have hx' : x = p ++ '/' :: b := by rw [hx]; simp [slash]
    have hmem : '/' ∈ x := by rw [hx']; simp
    obtain ⟨a', b', hab', hb', ha', hl'⟩ := split_at_last_slash x hmem
    obtain ⟨h1, h2⟩ := last_slash_unique a' b' p b (by rw [← hab', hx']) hb' hb
    refine ⟨hmem, ?_, ?_⟩
    · rw [hl', h2]; exact hsub
    · rw [ha', h1]

/-- C5. A permitted `Get` with a non-empty query `q` on the project named `p`: an item
is in the served list if and only if (a) it is a repository of the cached catalog of
the form `p ++ "/" ++ b`, where the last path segment `b` has no `/` and contains `q`
(so its text before the last `/` is `p`), or (b) it is a label of some repository of
the cached catalog and contains `q`. -/
theorem Get_search {σ : Type} (env : Env σ) (projectID : Int) (p : Project)
    (hid : env.GetInt64ProjectID = some projectID)
    (hproject : env.GetProjectByID projectID = Except.ok (some p))
    (hview : p.Public ≠ 0 ∨
      (env.VerifySecret = true ∧ env.checkProjectPermission 1 projectID = true) ∨
      (env.VerifySecret = false ∧ ∃ userID, env.ValidateUser = Except.ok userID ∧
        env.checkProjectPermission userID projectID = true))
    (hq : env.GetString "q".toList ≠ []) :
    ∃ served, (Get env).outcome = Outcome.returned (some served) ∧
      ∀ x, x ∈ served ↔
        (x ∈ env.GetRepoFromCache.1 ∧
          ∃ b, x = p.Name ++ slash ++ b ∧ '/' ∉ b ∧
            hasSubstring b (env.GetString "q".toList)) ∨
        (∃ r ∈ env.GetRepoFromCache.1, x ∈ env.GetRepoLabels r ∧
          hasSubstring x (env.GetString "q".toList)) := by
  refine ⟨_, Get_permitted env projectID p hid hproject hview, ?_⟩
  intro x
  have hlen : (env.GetString "q".toList).length > 0 := List.length_pos.mpr hq
  simp only [listRepositories, hlen, if_true]
  rw [mem_searchLoop env p.Name _ _ x, project_segment_iff]

/-- C5, on the catalog `lib/app-server`, `other/app-tool`, `lib/web` with project `lib`,
query `app` and no labels: `lib/app-server` is served, the other two are not. -/
theorem Get_search_witness :
    ∃ served, (Get searchEnv).outcome = Outcome.returned (some served) ∧
      "lib/app-server".toList ∈ served ∧ "other/app-tool".toList ∉ served ∧
      "lib/web".toList ∉ served := by
  obtain ⟨served, hout, hmem⟩ := Get_search searchEnv 1 publicLib rfl rfl
    (Or.inl (by decide)) (by decide)
  have hlabels : ∀ x, ¬ ∃ r ∈ searchEnv.GetRepoFromCache.1,
      x ∈ searchEnv.GetRepoLabels r ∧ hasSubstring x (searchEnv.GetString "q".toList) := by
    rintro x ⟨r, _, hl, _⟩
    exact absurd hl (List.not_mem_nil x)
  refine ⟨served, hout, ?_, ?_, ?_⟩
  · apply (hmem _).mpr
    exact Or.inl ⟨by decide, "app-server".toList, by decide, by decide,
      [], "-server".toList, by decide⟩
  · intro h
    rcases (hmem _).mp h with ⟨_, b, hb, _, _⟩ | hl
    · have h0 : some 'o' = some 'l' := congrArg List.head? hb
      exact absurd h0 (by decide)
    · exact hlabels _ hl
  · intro h
    rcases (hmem _).mp h with ⟨_, b, hb, _, hsub⟩ | hl
    · have hb' : b = "web".toList := by
        have h4 := congrArg (List.drop 4) hb
        exact h4.symm
      rw [hb'] at hsub
      have hc := (stringsContains_iff _ _).mpr hsub
      revert hc
      decide
    · exact hlabels _ hl

/-- C6. A permitted `Get` with an empty query on the project named `p`: when `p` is not
empty the served list is the cached catalog restricted, in catalog order, to the entries
that contain `/` and whose text before the last `/` is `p`, so no entry without `/` is
served; when `p` is empty too the served list is the cached catalog itself. -/
theorem Get_listing {σ : Type} (env : Env σ) (projectID : Int) (p : Project)
    (hid : env.GetInt64ProjectID = some projectID)
    (hproject : env.GetProjectByID projectID = Except.ok (some p))
    (hview : p.Public ≠ 0 ∨
      (env.VerifySecret = true ∧ env.checkProjectPermission 1 projectID = true) ∨
      (env.VerifySecret = false ∧ ∃ userID, env.ValidateUser = Except.ok userID ∧
        env.checkProjectPermission userID projectID = true))
    (hq : env.GetString "q".toList = []) :
    (p.Name ≠ [] →
      (Get env).outcome = Outcome.returned (some
        (env.GetRepoFromCache.1.filter
          (fun r => decide ('/' ∈ r ∧ getProjectName r = p.Name)))) ∧
      ∀ r, '/' ∉ r → r ∉ env.GetRepoFromCache.1.filter
          (fun r => decide ('/' ∈ r ∧ getProjectName r = p.Name))) ∧
    (p.Name = [] →
      (Get env).outcome = Outcome.returned (some env.GetRepoFromCache.1)) := by
  have hG := Get_permitted env projectID p hid hproject hview
  have hlen : ¬ (env.GetString "q".toList).length > 0 := by rw [hq]; simp
  constructor
  · intro hp
    have hplen : p.Name.length > 0 := List.length_pos.mpr hp
    refine ⟨?_, ?_⟩
    · rw [hG]
      simp only [listRepositories, hlen, if_false, hplen, if_true, projectLoop_eq_filter]
    · intro r hr hmem
      have := (List.mem_filter.mp hmem).2
      simp only [decide_eq_true_eq] at this
      exact hr this.1
  · intro hp
    have hplen : ¬ p.Name.length > 0 := by rw [hp]; simp
    rw [hG]
    simp only [listRepositories, hlen, if_false, hplen]

theorem Get_listing_witness :
    (Get (sampleEnv publicLib [] [])).outcome = Outcome.returned (some
      ["lib/app-server".toList, "lib/web".toList]) :=
  ((Get_listing (sampleEnv publicLib [] []) 1 publicLib rfl rfl (Or.inl (by decide)) rfl).1
    (by decide)).1

/-! ## float64 rounding -/

theorem log2Fuel_spec (fuel n : Nat) (hn : 0 < n) (hf : n ≤ fuel) :
    2 ^ log2Fuel fuel n ≤ n ∧ n < 2 ^ (log2Fuel fuel n + 1) := by
  induction fuel generalizing n with
  | zero => omega
  | succ fuel ih =>
    unfold log2Fuel
    by_cases h2 : n < 2
    · simp only [h2, if_true]
      constructor <;> simp <;> omega
    · simp only [h2, if_false]
      have hpos : 0 < n / 2 := by omega
      have hle : n / 2 ≤ fuel := by omega
      obtain ⟨h1, h3⟩ := ih (n / 2) hpos hle
      constructor
      · rw [pow_succ]; omega
      · rw [pow_succ]; omega

theorem log2_spec (n : Nat) (hn : 0 < n) : 2 ^ log2 n ≤ n ∧ n < 2 ^ (log2 n + 1) :=
  log2Fuel_spec n n hn (le_refl n)

/-- Scaling a fraction of naturals by a power of two. -/
theorem scaled_fraction (a q : Nat) (e : Int) :
    ((a * 2 ^ (-e).toNat : Nat) : ℚ) / ((q * 2 ^ e.toNat : Nat) : ℚ)
      = (a : ℚ) / (q : ℚ) * (2 : ℚ) ^ (-e) := by
  rcases le_total 0 e with h | h
  · have h1 : (-e).toNat = 0 := by omega
    obtain ⟨k, rfl⟩ := Int.eq_ofNat_of_zero_le h
    simp only [h1, pow_zero, mul_one, Int.toNat_ofNat, zpow_neg, zpow_natCast]
    push_cast
    field_simp
  · have h1 : e.toNat = 0 := by omega
    obtain ⟨k, hk⟩ := Int.eq_ofNat_of_zero_le (Int.neg_nonneg_of_nonpos h)
    rw [hk]
    simp only [h1, pow_zero, mul_one, Int.toNat_ofNat, zpow_natCast]
    push_cast
    ring

theorem roundHalfEven_ge (n d K : Nat) (hd : 0 < d) (h : K * d ≤ n) :
    K ≤ roundHalfEven n d := by
  have hq : K ≤ n / d := (Nat.le_div_iff_mul_le hd).mpr h
  unfold roundHalfEven
  simp only
  split_ifs <;> omega

theorem roundHalfEven_le (n d K : Nat) (hd : 0 < d) (h : n ≤ K * d) :
    roundHalfEven n d ≤ K := by
  have hdiv : n / d ≤ K := by
    calc n / d ≤ (K * d) / d := Nat.div_le_div_right h
      _ = K := Nat.mul_div_cancel K hd
  have hmod : n % d ≠ 0 → n / d < K := by
    intro hr
    by_contra hlt
    have hK : K = n / d := by omega
    have := Nat.div_add_mod n d
    have h2 : d * (n / d) + n % d ≤ K * d := by omega
    rw [hK, Nat.mul_comm] at h2
    omega
  unfold roundHalfEven
  simp only
  split_ifs <;> omega

/-- The computed exponent is not above the binade of `a / q`. -/
theorem binadeExponent_le (a q : Nat) (ha : 0 < a) (hq : 0 < q) :
    (2 : ℚ) ^ binadeExponent a q ≤ (a : ℚ) / (q : ℚ) := by
  have hq' : (0 : ℚ) < q := by exact_mod_cast hq
  have ha' : (0 : ℚ) < a := by exact_mod_cast ha
  unfold binadeExponent
  simp only
  split_ifs with hc
  · -- the test itself
    have h1 : ((q * 2 ^ ((log2 a : Int) - (log2 q : Int)).toNat : Nat) : ℚ)
        ≤ ((a * 2 ^ (-((log2 a : Int) - (log2 q : Int))).toNat : Nat) : ℚ) := by
      exact_mod_cast hc
    have h2 := scaled_fraction a q ((log2 a : Int) - (log2 q : Int))
    have hden : (0 : ℚ) < ((q * 2 ^ ((log2 a : Int) - (log2 q : Int)).toNat : Nat) : ℚ) := by
      have : 0 < q * 2 ^ ((log2 a : Int) - (log2 q : Int)).toNat := by positivity
      exact_mod_cast this
    have h3 : (1 : ℚ) ≤ (a : ℚ) / (q : ℚ) * (2 : ℚ) ^ (-((log2 a : Int) - (log2 q : Int))) := by
      rw [← h2]
      exact (one_le_div hden).mpr h1
    have hpos : (0 : ℚ) < (2 : ℚ) ^ ((log2 a : Int) - (log2 q : Int)) := by positivity
    rw [zpow_neg] at h3
    calc (2 : ℚ) ^ ((log2 a : Int) - (log2 q : Int))
        = 1 * (2 : ℚ) ^ ((log2 a : Int) - (log2 q : Int)) := by ring
      _ ≤ ((a : ℚ) / (q : ℚ) * ((2 : ℚ) ^ ((log2 a : Int) - (log2 q : Int)))⁻¹)
            * (2 : ℚ) ^ ((log2 a : Int) - (log2 q : Int)) :=
          mul_le_mul_of_nonneg_right h3 hpos.le
      _ = (a : ℚ) / (q : ℚ) := by field_simp; ring
  · -- from the two logarithms
    obtain ⟨hla, _⟩ := log2_spec a ha
    obtain ⟨_, hlq⟩ := log2_spec q hq
    have hla' : (2 : ℚ) ^ (log2 a : Int) ≤ (a : ℚ) := by
      rw [zpow_natCast]; exact_mod_cast hla
    have hlq' : (q : ℚ) ≤ (2 : ℚ) ^ ((log2 q : Int) + 1) := by
      have : (q : ℚ) < (2 : ℚ) ^ (log2 q + 1) := by exact_mod_cast hlq
      have h2 : (2 : ℚ) ^ ((log2 q : Int) + 1) = (2 : ℚ) ^ (log2 q + 1) := by
        rw [← zpow_natCast]; push_cast; rfl
      rw [h2]; exact this.le
    rw [le_div_iff₀ hq']
    have hsplit : (2 : ℚ) ^ ((log2 a : Int) - (log2 q : Int) - 1) * (2 : ℚ) ^ ((log2 q : Int) + 1)
        = (2 : ℚ) ^ (log2 a : Int) := by
      rw [← zpow_add₀ (by norm_num : (2 : ℚ) ≠ 0)]
      congr 1; ring
    calc (2 : ℚ) ^ ((log2 a : Int) - (log2 q : Int) - 1) * (q : ℚ)
        ≤ (2 : ℚ) ^ ((log2 a : Int) - (log2 q : Int) - 1) * (2 : ℚ) ^ ((log2 q : Int) + 1) :=
          mul_le_mul_of_nonneg_left hlq' (by positivity)
      _ = (2 : ℚ) ^ (log2 a : Int) := hsplit
      _ ≤ (a : ℚ) := hla'

/-- What `roundNat` returns for a positive fraction `a / q`, with `s` the fraction
scaled by the returned exponent: the mantissa lies between the integers around `s`,
and unless the exponent is the least one the mantissa has at least 53 bits. -/
theorem roundNat_spec (a q : Nat) (ha : 0 < a) (hq : 0 < q) :
    -1074 ≤ (roundNat a q).2 ∧
    (∀ K : Nat, (K : ℚ) ≤ (a : ℚ) / (q : ℚ) * (2 : ℚ) ^ (-(roundNat a q).2) →
      K ≤ (roundNat a q).1) ∧
    (∀ K : Nat, (a : ℚ) / (q : ℚ) * (2 : ℚ) ^ (-(roundNat a q).2) ≤ (K : ℚ) →
      (roundNat a q).1 ≤ K) ∧
    (-1074 < (roundNat a q).2 →
      (2 : ℚ) ^ (52 : Int) ≤ (a : ℚ) / (q : ℚ) * (2 : ℚ) ^ (-(roundNat a q).2)) := by
  have ha0 : a ≠ 0 := by omega
  have hval : roundNat a q =
      (roundHalfEven (a * 2 ^ (-(max (binadeExponent a q - 52) (-1074))).toNat)
        (q * 2 ^ (max (binadeExponent a q - 52) (-1074)).toNat),
       max (binadeExponent a q - 52) (-1074)) := by
    simp only [roundNat, ha0, if_false]
  rw [hval]
  simp only
  generalize he : max (binadeExponent a q - 52) (-1074) = e
  have hd : 0 < q * 2 ^ e.toNat := by positivity
  have hd' : (0 : ℚ) < ((q * 2 ^ e.toNat : Nat) : ℚ) := by exact_mod_cast hd
  have hs := scaled_fraction a q e
  refine ⟨by rw [← he]; exact le_max_right _ _, ?_, ?_, ?_⟩
  · intro K hK
    apply roundHalfEven_ge _ _ _ hd
    rw [← hs, le_div_iff₀ hd'] at hK
    exact_mod_cast hK
  · intro K hK
    apply roundHalfEven_le _ _ _ hd
    rw [← hs, div_le_iff₀ hd'] at hK
    exact_mod_cast hK
  · intro hlt
    have hel : e = binadeExponent a q - 52 := by
      rw [← he] at hlt ⊢
      rcases max_cases (binadeExponent a q - 52) (-1074) with ⟨h1, _⟩ | ⟨h1, _⟩
      · exact h1
      · rw [h1] at hlt; exact absurd hlt (lt_irrefl _)
    have hb := binadeExponent_le a q ha hq
    have hpow : (2 : ℚ) ^ (52 : Int) = (2 : ℚ) ^ binadeExponent a q * (2 : ℚ) ^ (-e) := by
      rw [← zpow_add₀ (by norm_num : (2 : ℚ) ≠ 0)]
      congr 1; rw [hel]; ring
    rw [hpow]
    exact mul_le_mul_of_nonneg_right hb (by positivity)

theorem two_zpow_53 : (2 : ℚ) ^ (53 : Int) = ((2 ^ 53 : Nat) : ℚ) := by norm_num

/-- The rounded quotient is within one half of the exact quotient `n / d`. -/
theorem roundHalfEven_nearest (n d : Nat) (hd : 0 < d) :
    2 * (roundHalfEven n d * d) ≤ 2 * n + d ∧ 2 * n ≤ 2 * (roundHalfEven n d * d) + d := by
  have hdm := Nat.div_add_mod n d
  have hr := Nat.mod_lt n hd
  have hx : (n / d + 1) * d = d * (n / d) + d := by ring
  have hy : n / d * d = d * (n / d) := by ring
  unfold roundHalfEven
  simp only
  split_ifs <;> (first | rw [hx] | rw [hy]) <;> omega

/-- The computed exponent is the binade of `a / q`: the fraction is below `2^(l + 1)`. -/
theorem binadeExponent_lt (a q : Nat) (ha : 0 < a) (hq : 0 < q) :
    (a : ℚ) / (q : ℚ) < (2 : ℚ) ^ (binadeExponent a q + 1) := by
  have hq' : (0 : ℚ) < q := by exact_mod_cast hq
  obtain ⟨_, hla⟩ := log2_spec a ha
  obtain ⟨hlq, _⟩ := log2_spec q hq
  have hla' : (a : ℚ) < (2 : ℚ) ^ ((log2 a : Int) + 1) := by
    have : (a : ℚ) < (2 : ℚ) ^ (log2 a + 1) := by exact_mod_cast hla
    have h2 : (2 : ℚ) ^ ((log2 a : Int) + 1) = (2 : ℚ) ^ (log2 a + 1) := by
      rw [← zpow_natCast]; push_cast; rfl
    rw [h2]; exact this
  have hlq' : (2 : ℚ) ^ (log2 q : Int) ≤ (q : ℚ) := by
    rw [zpow_natCast]; exact_mod_cast hlq
  unfold binadeExponent
  simp only
  split_ifs with hc
  · rw [div_lt_iff₀ hq']
    have hsplit : (2 : ℚ) ^ ((log2 a : Int) - (log2 q : Int) + 1) * (2 : ℚ) ^ (log2 q : Int)
        = (2 : ℚ) ^ ((log2 a : Int) + 1) := by
      rw [← zpow_add₀ (by norm_num : (2 : ℚ) ≠ 0)]
      congr 1; ring
    calc (a : ℚ) < (2 : ℚ) ^ ((log2 a : Int) + 1) := hla'
      _ = (2 : ℚ) ^ ((log2 a : Int) - (log2 q : Int) + 1) * (2 : ℚ) ^ (log2 q : Int) :=
          hsplit.symm
      _ ≤ (2 : ℚ) ^ ((log2 a : Int) - (log2 q : Int) + 1) * (q : ℚ) :=
          mul_le_mul_of_nonneg_left hlq' (by positivity)
  · have h1 : ((a * 2 ^ (-((log2 a : Int) - (log2 q : Int))).toNat : Nat) : ℚ)
        < ((q * 2 ^ ((log2 a : Int) - (log2 q : Int)).toNat : Nat) : ℚ) := by
      exact_mod_cast Nat.lt_of_not_le hc
    have h2 := scaled_fraction a q ((log2 a : Int) - (log2 q : Int))
    have hden : (0 : ℚ) < ((q * 2 ^ ((log2 a : Int) - (log2 q : Int)).toNat : Nat) : ℚ) := by
      have : 0 < q * 2 ^ ((log2 a : Int) - (log2 q : Int)).toNat := by positivity
      exact_mod_cast this
    have h3 : (a : ℚ) / (q : ℚ) * (2 : ℚ) ^ (-((log2 a : Int) - (log2 q : Int))) < 1 := by
      rw [← h2]
      exact (div_lt_one hden).mpr h1
    have hpos : (0 : ℚ) < (2 : ℚ) ^ ((log2 a : Int) - (log2 q : Int)) := by positivity
    rw [zpow_neg] at h3
    have h4 : (a : ℚ) / (q : ℚ) < (2 : ℚ) ^ ((log2 a : Int) - (log2 q : Int)) := by
      have := mul_lt_mul_of_pos_right h3 hpos
      rw [mul_assoc, inv_mul_cancel₀ hpos.ne', mul_one, one_mul] at this
      exact this
    have h5 : (log2 a : Int) - (log2 q : Int) - 1 + 1 = (log2 a : Int) - (log2 q : Int) := by
      ring
    rw [h5]
    exact h4

/-- What `roundNat` returns is a float64 value: the exponent is not below `-1074` and
the mantissa has at most 53 bits (the value `2^53` standing for `2^52` at the next
exponent). -/
theorem roundNat_float64 (a q : Nat) (hq : 0 < q) :
    -1074 ≤ (roundNat a q).2 ∧ (roundNat a q).1 ≤ 2 ^ 53 := by
  rcases Nat.eq_zero_or_pos a with ha | ha
  · subst ha
    have hr : roundNat 0 q = (0, 0) := by simp [roundNat]
    rw [hr]
    constructor <;> norm_num
  · obtain ⟨hmin, _, hB, _⟩ := roundNat_spec a q ha hq
    refine ⟨hmin, hB (2 ^ 53) ?_⟩
    have hval : (roundNat a q).2 = max (binadeExponent a q - 52) (-1074) := by
      have ha0 : a ≠ 0 := by omega
      simp only [roundNat, ha0, if_false]
    have hge : binadeExponent a q - 52 ≤ (roundNat a q).2 := by
      rw [hval]; exact le_max_left _ _
    have hlt := binadeExponent_lt a q ha hq
    have hpos : (0 : ℚ) < (2 : ℚ) ^ (-(roundNat a q).2) := by positivity
    have h1 : (a : ℚ) / (q : ℚ) * (2 : ℚ) ^ (-(roundNat a q).2)
        ≤ (2 : ℚ) ^ (binadeExponent a q + 1) * (2 : ℚ) ^ (-(roundNat a q).2) :=
      mul_le_mul_of_nonneg_right hlt.le hpos.le
    have h2 : (2 : ℚ) ^ (binadeExponent a q + 1) * (2 : ℚ) ^ (-(roundNat a q).2)
        ≤ (2 : ℚ) ^ (53 : Int) := by
      rw [← zpow_add₀ (by norm_num : (2 : ℚ) ≠ 0)]
      apply zpow_le_zpow_right₀ (by norm_num)
      omega
    rw [two_zpow_53] at h2
    exact le_trans h1 h2

/-- A zero duration has age 0. -/
theorem ageDays_zero :
    ageDays 0 = 0 ∧ strconvItoa (ageDays 0) ++ " days".toList = "0 days".toList := by
  constructor <;> decide

set_option maxRecDepth 100000 in
/-- A duration of 171 days less one nanosecond: float64 rounding lifts the hour count
to 4104, so the computed age is 171 where 170 whole days have elapsed. -/
theorem ageDays_before_day_boundary :
    ageDays 14774399999999999 = 171 ∧
    (14774399999999999 : Int).tdiv 86400000000000 = 170 := by
  constructor <;> decide

/-! ## GetManifests -/

/-- Decoding a manifest without history entries ends in a run-time panic: the index
expression `mani.History[0]` of line 400 is out of range. -/
theorem decodeManifest_empty_history {σ : Type} (env : Env σ) (payload : GoString)
    (mani : Manifest) (hdecode : env.UnmarshalManifest payload = Except.ok mani)
    (hempty : mani.History = []) :
    decodeManifest env payload = ⟨[], Outcome.panicked⟩ := by
  simp only [decodeManifest, hdecode, hempty]

/-- C10 (the code at the failing input). A manifest request whose payload decodes to a
manifest without history entries: `GetManifests` neither serves a metadata item nor
reports an internal error, it ends in a run-time panic at `mani.History[0]`. -/
theorem GetManifests_empty_history_panics :
    (emptyHistoryEnv.UnmarshalManifest "manifest".toList = Except.ok ⟨[]⟩) ∧
    GetManifests emptyHistoryEnv =
      ⟨[Event.InitRepositoryClient "lib/app".toList,
        Event.PullManifest "latest".toList [MediaTypeManifest]],
       Outcome.panicked⟩ :=
  ⟨rfl, by decide⟩

end Harbor
